import Mathlib

set_option maxRecDepth 100000

/-!
# Verification of the `poll` command-line utility

This file shallowly embeds the argument-parsing, deduplication, result
formatting and exit-code logic of the `poll` CLI tool (src/poll.c, with the
older stdio variants in src/unnamed/part_000 and part_001) and proves
properties of that embedding.

Modeling conventions:
* C strings become `String` / `List Char`; the embedded functions never deal
  with embedded NUL bytes, which the program cannot receive through `argv`.
* C `int` becomes `Int` (the code itself guards against overflow with
  explicit `INT_MAX` comparisons, which are embedded as-is); bit masks
  (C `short`, always non-negative flag values below 2^14) become `Nat` with
  `|||`/`&&&`.
* The modeled platform is Linux (musl/glibc flag values, feature macros as in
  the repository Makefile), where `POLLRDNORM`, `POLLRDBAND`, `POLLWRNORM`,
  `POLLWRBAND`, `POLLMSG` and `POLLRDHUP` are all defined and `POLLREMOVE`
  is not, so the event table has exactly the twelve entries below.
-/

namespace Poll

/-- `INT_MAX` for the modeled 32-bit `int` platform. -/
def INT_MAX : Nat := 2147483647

/-- The `str_c -= 32` lower-case-to-upper-case fold from
`strIsEventFlagName` (src/poll.c lines 187-190). -/
def upcase (c : Char) : Char :=
  if 'a' ≤ c ∧ c ≤ 'z' then Char.ofNat (c.toNat - 32) else c

/-- One entry of `eventFlagMaps` (src/poll.c lines 128-133):
a poll bit flag together with its `POLL`-stripped name. -/
structure EventFlagMap where
  flag : Nat
  name : String
deriving DecidableEq

/-- `eventFlagMaps` (src/poll.c lines 137-175) in source order, with the
Linux `poll.h` flag values.  The result-only flags `ERR`/`HUP`/`NVAL` come
last, exactly as in the source. -/
def eventFlagMaps : List EventFlagMap :=
  [ ⟨0x001, "IN"⟩,
    ⟨0x002, "PRI"⟩,
    ⟨0x004, "OUT"⟩,
    ⟨0x040, "RDNORM"⟩,
    ⟨0x080, "RDBAND"⟩,
    ⟨0x100, "WRNORM"⟩,
    ⟨0x200, "WRBAND"⟩,
    ⟨0x400, "MSG"⟩,
    ⟨0x2000, "RDHUP"⟩,
    ⟨0x008, "ERR"⟩,
    ⟨0x010, "HUP"⟩,
    ⟨0x020, "NVAL"⟩ ]

/-- `strIsEventFlagName` (src/poll.c lines 177-197).  The C loop compares
characters (case-folding the candidate string) only while *both* strings
still have characters left, and returns 1 as soon as either string ends. -/
def strIsEventFlagName : List Char → List Char → Bool
  | c :: str, n :: name => if upcase c ≠ n then false else strIsEventFlagName str name
  | _, _ => true

/-- `strToEventFlag` (src/poll.c lines 201-211): first table entry whose
name matches, 0 when none does. -/
def strToEventFlag (s : List Char) : Nat :=
  match eventFlagMaps.find? (fun e => strIsEventFlagName s e.name.data) with
  | some e => e.flag
  | none => 0

/-- Loop of `strToInt` (src/poll.c lines 215-242).  `val` is the
accumulated value, `len` the number of digits accepted so far.  Returns the
C function's return value (`-2` = `STR_TO_INT_invalid`, `-1` =
`STR_TO_INT_overflow`) together with the final `*lenPtr`, which the C code
computes as accepted digits plus `strlen` of the unconsumed rest. -/
def strToIntLoop : List Char → Nat → Nat → Int × Nat
  | [], val, len => ((val : Int), len)
  | c :: rest, val, len =>
      if c < '0' ∨ '9' < c then (-2, len + (c :: rest).length)
      else if val ≤ INT_MAX / 10 ∧ val * 10 + (c.toNat - '0'.toNat) ≤ INT_MAX then
        strToIntLoop rest (val * 10 + (c.toNat - '0'.toNat)) (len + 1)
      else (-1, len + (c :: rest).length)

/-- `strToInt` (src/poll.c lines 215-242). -/
def strToInt (s : List Char) : Int × Nat :=
  strToIntLoop s 0 0

/-! Exit codes (src/poll.c lines 42-46). -/

def EXIT_POLLED_EVENT_OR_INFO : Nat := 0
def EXIT_UNPOLLED_EVENT : Nat := 1
def EXIT_NO_EVENT : Nat := 2
def EXIT_SYNTAX_ERROR : Nat := 3
def EXIT_EXECUTION_ERROR : Nat := 4

/-! Diagnostic and informational strings (src/poll.c lines 55-126).
`helpText` and `eventList` keep their leading newline, exactly as in the
source; the help-printing code writes them starting from offset 1. -/

def unrecognizedOption : String := "poll: Unrecognized option: "
def unrecognizedEvent : String := "poll: Unrecognized event: "
def fdOverflowedInt : String := "poll: FD value greater than maximum possible: "
def timeoutOverflowedInt : String :=
  "poll: timeout value greater than maximum possible: "
def timeoutMissing : String := "poll: timeout option requires an argument\n"
def timeoutInvalid : String := "poll: invalid timeout value: "
def unableToMalloc : String := "poll: unable to allocate memory\n"

def helpText : String :=
  "\nUsage: poll [OPTION] [[FD]... [EVENT]...]...\n\nPoll FDs (file descriptors, default is 0)* for events of interest.\n\n  -h, --help            Print this help text and exit.\n      --help-events     List possible FD events and exit.\n      --help-exits      List exit code meanings and exit.\n  -t, --timeout=TIMEOUT How long to wait for events (in milliseconds).\n\n * File descriptors are expected to be non-negative integers.\n"

def exitCodes : String :=
  "Exit codes:\n\n  0  A polled event occurred, or help info printed.\n  1  An always-polled event that was not explicitly polled occurred.\n  2  No events occurred before timeout ended.\n  3  Syntax error in how the poll command was called.\n  4  Error when trying to carry out the poll command.\n"

def eventList : String :=
  "\nPollable events:\n  IN PRI OUT RDNORM RDBAND WRNORM WRBAND MSG RDHUP\n\nAlways-polled events (polling these only effects exit code if they occur):\n  ERR HUP NVAL\n\nSee your system\x27s poll documentation for each event\x27s exact meaning.\n"

/-- C pointer arithmetic on strings: `strAfter s n` models `s + n`. -/
def strAfter (s : String) (n : Nat) : String :=
  ⟨s.data.drop n⟩

/-- Result of `parseOption` (src/poll.c lines 244-341).  `parse_good`
additionally records whether the option consumed the following argument
(the C function advances `*strsPtr` for `-t`/`--timeout`). -/
inductive OptRes where
  | exit_success (out : String)
  | exit_failure (err : String)
  | parse_good (timeout : Int) (consumedNext : Bool)
  | parse_bad
deriving DecidableEq

/-- Shared tail of `parseOption` (src/poll.c lines 309-339): parse the
timeout value string; on overflow/invalid print the value (the C code
overwrites the terminating NUL with a newline, so the message ends in the
full value string followed by a newline, see the `strToIntLoop` length
accounting). -/
def parseTimeoutValue (t : String) (consumedNext : Bool) : OptRes :=
  let v := (strToInt t.data).1
  if 0 ≤ v then .parse_good v consumedNext
  else if v = -1 then .exit_failure (timeoutOverflowedInt ++ t ++ "\n")
  else .exit_failure (timeoutInvalid ++ t ++ "\n")

/-- `parseOption` (src/poll.c lines 244-341).  `next?` is the following
command-line argument, if any (`*(strs + 1)` in the C code). -/
def parseOption (tok : String) (next? : Option String) : OptRes :=
  if tok.data.head? ≠ some '-' then .parse_bad
  else
    let s := strAfter tok 1
    if s = "h" ∨ s = "-help" then .exit_success (strAfter helpText 1)
    else if s = "-help-events" then .exit_success (strAfter eventList 1)
    else if s = "-help-exits" then .exit_success exitCodes
    else if s = "t" ∨ s = "-timeout" then
      match next? with
      | none => .exit_failure timeoutMissing
      | some nxt => parseTimeoutValue nxt true
    else if s.data.head? = some 't' then parseTimeoutValue (strAfter s 1) false
    else if "-timeout=".data.isPrefixOf s.data then parseTimeoutValue (strAfter s 9) false
    else .exit_failure (unrecognizedOption ++ tok ++ helpText)

/-- One descriptor group: the `struct pollfd` entry (`fd`, `events`)
paired with its `nstr_st` entry (the original command-line token text),
which the C code keeps in the parallel array `fdNStrs`. -/
structure FDGroup where
  fd : Nat
  events : Nat
  text : String
deriving DecidableEq

/-- The parser state of `main` (src/poll.c lines 440-450): the poll
specification array (with its parallel name-string array), the count of
opened groups `nfds`, the start index `fdGroup_i` of the groups opened
since the last mask application, the mask accumulator `flags` and the
timeout.  Representation invariant: `arr.length = max nfds 1` — slot 0
initially holds the preset default entry (fd 0, text "0"). -/
structure PState where
  arr : List FDGroup
  nfds : Nat
  fdGroup_i : Nat
  flags : Nat
  timeout : Int

/-- `applyFlagsToFDGroup` (src/poll.c lines 393-409): bump `nfds` to 1 if
no descriptor argument opened a group yet (adopting the preset default
entry), then assign `events := flags` to every group with index in
`[fdGroup_i, nfds)`.  Under the representation invariant that index range
is exactly the `arr.drop fdGroup_i` region. -/
def applyFlagsToFDGroup (flags : Nat) (st : PState) : PState :=
  let nfds := if st.nfds = 0 then 1 else st.nfds
  { st with
    nfds := nfds
    fdGroup_i := nfds
    arr := st.arr.take st.fdGroup_i
           ++ (st.arr.drop st.fdGroup_i).map (fun g => { g with events := flags }) }

/-- The descriptor branch of the argument loop (src/poll.c lines 457-469):
apply pending flags if any, then open a new group at index `nfds`
(overwriting the preset slot 0 when `nfds = 0`) and increment `nfds`.
The C code leaves the new slot's `events` uninitialized until the next
`applyFlagsToFDGroup`, which assigns every slot exactly once before use;
we use 0 as the placeholder. -/
def openFDGroup (st : PState) (fd : Nat) (text : String) : PState :=
  let st := if st.flags ≠ 0 then { applyFlagsToFDGroup st.flags st with flags := 0 } else st
  { st with
    arr := if st.nfds = 0 then [⟨fd, 0, text⟩] else st.arr ++ [⟨fd, 0, text⟩]
    nfds := st.nfds + 1 }

/-- Initial parser state (src/poll.c lines 441-450): `nfds = 0`, slot 0
preset to descriptor 0 with name string "0", no flags, timeout `-1`. -/
def initState : PState :=
  { arr := [⟨0, 0, "0"⟩], nfds := 0, fdGroup_i := 0, flags := 0, timeout := -1 }

/-- Outcome of the argument-parsing phase: either an early exit carrying
the exit code and everything written to standard output and standard
error, or the pre-deduplication group sequence plus timeout to hand to
`poll(2)`. -/
inductive ParseOutcome where
  | exitEarly (code : Nat) (out err : String)
  | poll (specs : List FDGroup) (timeout : Int)
deriving DecidableEq

/-- The argument loop of `main` (src/poll.c lines 452-518), including the
final unconditional `applyFlagsToFDGroup` for the last group.  Token
classification order matches the source: non-negative integer first, then
integer overflow, then option, then event name, else usage error.  The
`parse_good _ true # []` branch is unreachable (`parseOption` only
consumes a following argument when one exists) and conservatively repeats
the missing-timeout error. -/
def mainLoop : List String → PState → ParseOutcome
  | [], st => .poll (applyFlagsToFDGroup st.flags st).arr st.timeout
  | tok :: rest, st =>
    let fd := (strToInt tok.data).1
    if 0 ≤ fd then mainLoop rest (openFDGroup st fd.toNat tok)
    else if fd = -1 then
      .exitEarly EXIT_SYNTAX_ERROR "" (fdOverflowedInt ++ tok ++ "\n")
    else
      match parseOption tok rest.head? with
      | .exit_success out => .exitEarly EXIT_POLLED_EVENT_OR_INFO out ""
      | .exit_failure err => .exitEarly EXIT_SYNTAX_ERROR "" err
      | .parse_good t true =>
        match rest with
        | _ :: rest2 => mainLoop rest2 { st with timeout := t }
        | [] => .exitEarly EXIT_SYNTAX_ERROR "" timeoutMissing
      | .parse_good t false => mainLoop rest { st with timeout := t }
      | .parse_bad =>
        let flag := strToEventFlag tok.data
        if flag ≠ 0 then mainLoop rest { st with flags := st.flags ||| flag }
        else .exitEarly EXIT_SYNTAX_ERROR "" (unrecognizedEvent ++ tok ++ eventList)

/-- The whole argument-parsing phase of `main`, from the preset state. -/
def mainParse (args : List String) : ParseOutcome :=
  mainLoop args initState

/-- The possible shapes of a syntax-error diagnostic: the fixed
missing-timeout-argument message (which names no token), or one of the
token-naming messages — for the timeout-value messages the named string
`t` is either a whole argument token (separate `-t <val>` form) or the
value part of an inline `-t<val>` / `--timeout=<val>` token. -/
def usageErrShape (args : List String) (err : String) : Prop :=
  err = timeoutMissing
  ∨ (∃ tok ∈ args, err = fdOverflowedInt ++ tok ++ "\n")
  ∨ (∃ tok ∈ args, err = unrecognizedOption ++ tok ++ helpText)
  ∨ (∃ tok ∈ args, err = unrecognizedEvent ++ tok ++ eventList)
  ∨ (∃ tok ∈ args, ∃ t : String,
      (t = tok ∨ t = strAfter tok 2 ∨ t = strAfter tok 10) ∧
      (err = timeoutOverflowedInt ++ t ++ "\n" ∨ err = timeoutInvalid ++ t ++ "\n"))

/-- `getD` fallback entry; the embedding only reads indices that are in
bounds, exactly as the C code only indexes within the allocated array. -/
def dflt : FDGroup := ⟨0, 0, ""⟩

/-- One merge of the duplicate-descriptor inner loop (src/poll.c lines
525-532): OR the duplicate's events into the pivot group at `g`
(`pollSpecs[fdGroup_i].events |= pollSpecs[i].events`) and move the last
live entry (index `nfds - 1` after the `nfds -= 1` decrement) into the
hole at `i` (`pollSpecs[i] = pollSpecs[nfds]; fdNStrs[i] = fdNStrs[nfds]`). -/
def mergeStep (a : List FDGroup) (nfds g i : Nat) : List FDGroup :=
  let ag := a.getD g dflt
  let ai := a.getD i dflt
  let a1 := a.set g { ag with events := ag.events ||| ai.events }
  a1.set i (a1.getD (nfds - 1) dflt)

/-- Inner loop of the duplicate-descriptor merge (src/poll.c lines
523-534), scanning index `i` for duplicates of the pivot group at index
`g`: on a duplicate, perform `mergeStep`, decrement `nfds` and re-examine
index `i` (the C code does `i -= 1` and the `for` header adds it back);
otherwise advance `i`.  The array length never changes (the C array is
not resized either); `nfds` tracks the live region. -/
def mergeInner (a : List FDGroup) (nfds g i : Nat) : List FDGroup × Nat :=
  if h : i < nfds then
    if (a.getD i dflt).fd = (a.getD g dflt).fd then
      mergeInner (mergeStep a nfds g i) (nfds - 1) g i
    else
      mergeInner a nfds g (i + 1)
  else (a, nfds)
termination_by nfds - i
decreasing_by
all_goals omega

/-- Outer loop of the duplicate-descriptor merge (src/poll.c lines
521-535).  `min r.2 nfds` equals `r.2` (`mergeInner` never increases
`nfds`, see `mergeInner_nfds_le`); the `min` only makes termination
evident. -/
def dedupLoop (a : List FDGroup) (nfds g : Nat) : List FDGroup × Nat :=
  if g < nfds - 1 then
    dedupLoop (mergeInner a nfds g (g + 1)).1
      (min (mergeInner a nfds g (g + 1)).2 nfds) (g + 1)
  else (a, nfds)
termination_by nfds - g
decreasing_by
have := Nat.min_le_right (mergeInner a nfds g (g + 1)).2 nfds
omega

/-- The duplicate-descriptor merge applied to the parsed group sequence
(whose length is exactly `nfds` in our representation): the live region
after the merge. -/
def dedup (a : List FDGroup) : List FDGroup :=
  let r := dedupLoop a a.length 0
  r.1.take r.2

/-- `printEventFlags` (src/poll.c lines 369-387): the output line built in
`outputBuffer` — the descriptor's original token text, then a space and
the event name for every table entry whose flag is set in `flags`, in
table order, then a newline. -/
def printEventFlags (flags : Nat) (fdNStr : String) : String :=
  (eventFlagMaps.foldl
    (fun out e => if e.flag &&& flags ≠ 0 then out ++ " " ++ e.name else out)
    fdNStr) ++ "\n"

/-- The event names `printEventFlags` emits for a given result mask. -/
def printedNames (flags : Nat) : List String :=
  (eventFlagMaps.filter (fun e => e.flag &&& flags ≠ 0)).map (fun e => e.name)

/-- One deduplicated entry after `poll(2)` returned: requested mask
(`events`), result mask (`revents`) and the token text to print. -/
structure PollResult where
  events : Nat
  revents : Nat
  text : String
deriving DecidableEq

/-- Result-reporting loop of `main` (src/poll.c lines 553-565): scan
entries while the ready-count `result` is nonzero; for each entry with
nonzero `revents` print its line and clear the exit code to
`EXIT_POLLED_EVENT_OR_INFO` when `revents` overlaps the requested
`events`.  `oracle k` tells whether the `k`-th `write(1, ...)` call
succeeds; poll.c never checks the result of `write` (line 386), so the
oracle only determines which lines actually reach standard output and
never influences control flow or the exit code. -/
def reportLoopC (oracle : Nat → Bool) :
    List PollResult → Nat → Nat → Nat → List String × Nat
  | [], _, _, exitcode => ([], exitcode)
  | _ :: _, 0, _, exitcode => ([], exitcode)
  | e :: es, result + 1, k, exitcode =>
    if e.revents ≠ 0 then
      let line := printEventFlags e.revents e.text
      let exitcode := if e.revents &&& e.events ≠ 0 then EXIT_POLLED_EVENT_OR_INFO else exitcode
      let r := reportLoopC oracle es result (k + 1) exitcode
      ((if oracle k then [line] else []) ++ r.1, r.2)
    else
      reportLoopC oracle es (result + 1) k exitcode

end Poll

namespace P000

/-!
Embedding of the stdio variant src/unnamed/part_000 (the parts the claims
need): `parse_nonnegative_int`, the option prelude of `main` (lines
370-444) and the result-reporting loop of `main` (lines 519-535).
-/

/-- `version_text` (src/unnamed/part_000 line 33). -/
def version_text : String := "poll 1.0.0\n"

/-- `help_text` (src/unnamed/part_000 lines 35-83), on the modeled
platform (all optional flags except `POLLREMOVE` available). -/
def help_text : String :=
  "Wait until at least one event happens on at least one file descriptor.\n\nUsage:\n    poll [--timeout=<timeout>] [[<descriptor>]... [<event>]...]...\n    poll (--help | --version)\n\nOptions:\n    -h --help               show this help text\n    -V --version            show version text\n    -t --timeout=<timeout>  upper limit on waiting (in milliseconds)\n\nExits:\n    0  got at least one event that was asked for\n    1  got only always-polled events that were not asked for\n    2  got no events within <timeout> milliseconds\n    3  error in how the poll command was called\n    4  error when trying to carry out the poll command\n\nNormal events:\n    IN OUT PRI RDNORM RDBAND WRNORM WRBAND MSG RDHUP\n\nAlways-polled events:\n    ERR HUP NVAL\n"

/-- `error_need_poll` message (src/unnamed/part_000 lines 131-139); the C
code writes no trailing newline here. -/
def need_poll_msg (arg0 : String) : String :=
  arg0 ++ ": need file descriptor or event argument"

/-- `error_need_timeout` message (src/unnamed/part_000 lines 142-150). -/
def need_timeout_msg (arg0 : String) : String :=
  arg0 ++ ": need timeout argument"

/-- `error_bad_option` message (src/unnamed/part_000 lines 153-163). -/
def bad_option_msg (option : String) (arg0 : String) : String :=
  arg0 ++ ": bad option: " ++ option ++ "\n"

/-- `error_bad_timeout` message (src/unnamed/part_000 lines 166-176). -/
def bad_timeout_msg (timeout : String) (arg0 : String) : String :=
  arg0 ++ ": bad timeout: " ++ timeout ++ "\n"

/-- `error_bad_argument` message (src/unnamed/part_000 lines 179-189). -/
def bad_argument_msg (argument : String) (arg0 : String) : String :=
  arg0 ++ ": bad argument: " ++ argument ++ "\n"

/-- Loop of `parse_nonnegative_int` (src/unnamed/part_000 lines 286-307):
`none` models returning 0 (failure: non-digit or overflow), `some v`
models returning 1 with `*destination = v`. -/
def parse_nonnegative_intLoop : List Char → Nat → Option Nat
  | [], value => some value
  | c :: rest, value =>
    if c < '0' ∨ '9' < c then none
    else if value > (Poll.INT_MAX - (c.toNat - '0'.toNat)) / 10 then none
    else parse_nonnegative_intLoop rest (value * 10 + (c.toNat - '0'.toNat))

/-- `parse_nonnegative_int` (src/unnamed/part_000 lines 286-307). -/
def parse_nonnegative_int (s : List Char) : Option Nat :=
  parse_nonnegative_intLoop s 0

/-- Outcome of the option prelude of part_000's `main`: an early exit
(code, standard output, standard error), or the remaining argument list
plus the timeout with which the descriptor/event loop runs. -/
inductive StartResult where
  | exit (code : Nat) (out err : String)
  | run (rest : List String) (timeout : Int)
deriving DecidableEq

/-- The tail of the option prelude (src/unnamed/part_000 lines 429-444):
after an option was recognized the C code advances `argv` once more,
errors out if no argument is left, then validates the pending timeout
string, then enters the descriptor/event loop. -/
def afterOption (arg0 : String) (timeout_arg? : Option String)
    (remaining : List String) : StartResult :=
  match remaining with
  | [] => .exit 3 "" (need_poll_msg arg0)
  | _ :: _ =>
    match timeout_arg? with
    | none => .run remaining (-1)
    | some t =>
      match parse_nonnegative_int t.data with
      | some v => .run remaining (v : Int)
      | none => .exit 3 "" (bad_timeout_msg t arg0)

/-- The option prelude of part_000's `main` (lines 370-444).  Options are
only recognized in the first argument; `--` ends option processing; the
informational options print to standard output and exit 0 (modeling the
writes as succeeding — write failure there is the concern of the
reporting loop claims). -/
def main_start (arg0 : String) (args : List String) : StartResult :=
  match args with
  | [] => .exit 3 "" (need_poll_msg arg0)
  | arg :: rest =>
    if arg.data.head? = some '-' then
      let s := Poll.strAfter arg 1
      if s = "-help" ∨ s = "h" then .exit 0 help_text ""
      else if s = "-version" ∨ s = "V" then .exit 0 version_text ""
      else if s = "-timeout" ∨ s = "t" then
        match rest with
        | [] => .exit 3 "" (need_timeout_msg arg0)
        | nxt :: rest2 => afterOption arg0 (some nxt) rest2
      else if "-timeout=".data.isPrefixOf s.data then
        afterOption arg0 (some (Poll.strAfter s 9)) rest
      else if "t".data.isPrefixOf s.data then
        afterOption arg0 (some (Poll.strAfter s 1)) rest
      else if s ≠ "-" then .exit 3 "" (bad_option_msg arg arg0)
      else afterOption arg0 none rest
    else .run args (-1)

/-- Result-reporting loop of part_000's `main` (lines 519-535), with the
line text abstracted as `printLine` (the event-name iteration inside
`print_events_for_fd` indexes past the `events` array — `events +
sizeof(events)` is not its one-past-the-end pointer — so the exact text is
not well-defined C; the logic under verification is independent of it).
`oracle k` tells whether the `k`-th output line is written successfully;
on a failed write the C code returns `error_writing_output` =
`EXIT_EXECUTION_ERROR` (4) immediately. -/
def reportLoop000 (printLine : Poll.PollResult → String) (oracle : Nat → Bool) :
    List Poll.PollResult → Nat → Nat → Nat → List String × Nat
  | _, 0, _, exitcode => ([], exitcode)
  | [], _ + 1, _, exitcode => ([], exitcode)
  | e :: es, result + 1, k, exitcode =>
    if e.revents ≠ 0 then
      if oracle k then
        let exitcode := if e.revents &&& e.events ≠ 0 then 0 else exitcode
        let r := reportLoop000 printLine oracle es result (k + 1) exitcode
        (printLine e :: r.1, r.2)
      else ([], 4)
    else reportLoop000 printLine oracle es (result + 1) k exitcode

end P000

namespace Poll

/-- Spec-level measure for the deduplicator: the bitwise OR of every mask
among all groups naming descriptor `d`. -/
def orForFd (a : List FDGroup) (d : Nat) : Nat :=
  ((a.filter (fun g => g.fd = d)).map (fun g => g.events)).foldr (fun x y => x ||| y) 0

/-- Concatenation of a list of strings (used to state what
`printEventFlags` emits). -/
def strConcat (l : List String) : String :=
  l.foldr (fun a b => a ++ b) ""

end Poll

namespace PollSpec

/-- Modelled from the spec: "case-insensitive exact match against the event
table" — two strings match exactly ignoring case when their upper-cased
character sequences are equal. -/
def ciExactMatch (s n : String) : Bool :=
  s.data.map Poll.upcase = n.data.map Poll.upcase

/-!
Spec-side grouper, written from the words of claim C1: event tokens OR
their bit into a mask accumulator; a descriptor token (or the end of the
argument list) reached with a nonzero accumulated mask applies that mask
to all groups opened since the previous mask application, and when no
descriptor token preceded the first event token the mask goes to an
implicit group for descriptor 0.  Token classification and option
handling are shared with the code-side embedding — claim C1 is about the
grouping, not the lexer.
-/

/-- Spec-side grouper state: the groups whose mask was already applied,
the `(descriptor, token text)` groups opened since the previous mask
application, the mask accumulator, and the timeout. -/
structure SpecState where
  applied : List Poll.FDGroup
  pending : List (Nat × String)
  mask : Nat
  timeout : Int

/-- Apply the accumulated mask to all groups opened since the previous
mask application; when no descriptor token was seen at all so far, the
mask is applied to an implicit group for descriptor 0 (printed as "0"). -/
def applyMask (st : SpecState) : List Poll.FDGroup :=
  let pend := if st.applied.isEmpty ∧ st.pending.isEmpty then [(0, "0")] else st.pending
  st.applied ++ pend.map (fun p => (⟨p.1, st.mask, p.2⟩ : Poll.FDGroup))

/-- Spec-side parse loop (claim C1's description of the argument
grammar).  Classification of each token is identical to the code side;
only the group bookkeeping follows the claim's words. -/
def specLoop : List String → SpecState → Poll.ParseOutcome
  | [], st => .poll (applyMask st) st.timeout
  | tok :: rest, st =>
    let fd := (Poll.strToInt tok.data).1
    if 0 ≤ fd then
      if st.mask ≠ 0 then
        specLoop rest
          { applied := applyMask st, pending := [(fd.toNat, tok)], mask := 0
            timeout := st.timeout }
      else
        specLoop rest { st with pending := st.pending ++ [(fd.toNat, tok)] }
    else if fd = -1 then
      .exitEarly Poll.EXIT_SYNTAX_ERROR "" (Poll.fdOverflowedInt ++ tok ++ "\n")
    else
      match Poll.parseOption tok rest.head? with
      | .exit_success out => .exitEarly Poll.EXIT_POLLED_EVENT_OR_INFO out ""
      | .exit_failure err => .exitEarly Poll.EXIT_SYNTAX_ERROR "" err
      | .parse_good t true =>
        match rest with
        | _ :: rest2 => specLoop rest2 { st with timeout := t }
        | [] => .exitEarly Poll.EXIT_SYNTAX_ERROR "" Poll.timeoutMissing
      | .parse_good t false => specLoop rest { st with timeout := t }
      | .parse_bad =>
        let flag := Poll.strToEventFlag tok.data
        if flag ≠ 0 then specLoop rest { st with mask := st.mask ||| flag }
        else .exitEarly Poll.EXIT_SYNTAX_ERROR "" (Poll.unrecognizedEvent ++ tok ++ Poll.eventList)

/-- The spec-side parse from the empty initial state. -/
def specParse (args : List String) : Poll.ParseOutcome :=
  specLoop args { applied := [], pending := [], mask := 0, timeout := -1 }

/-- Simulation invariant between the code-side parser state and the
spec-side grouper state: same timeout and mask; before any group was
opened (`nfds = 0`) the code array still holds only the preset default
slot, and both spec lists are empty; afterwards the code array's applied
region `[0, fdGroup_i)` is exactly `applied`, and the still-unapplied
region `[fdGroup_i, nfds)` carries exactly the `pending` descriptors and
texts. -/
def inv (cst : Poll.PState) (sst : SpecState) : Prop :=
  cst.timeout = sst.timeout ∧ cst.flags = sst.mask ∧
  ((cst.nfds = 0 ∧ cst.fdGroup_i = 0 ∧ cst.arr = [⟨0, 0, "0"⟩] ∧
      sst.applied = [] ∧ sst.pending = [])
   ∨ (1 ≤ cst.nfds ∧ cst.fdGroup_i ≤ cst.nfds ∧ cst.arr.length = cst.nfds ∧
      sst.applied = cst.arr.take cst.fdGroup_i ∧
      sst.pending = (cst.arr.drop cst.fdGroup_i).map (fun g => (g.fd, g.text))))

end PollSpec

/-! ## The event-name lexer and the event table (claims C4 and C6) -/

namespace Poll

theorem strIsEventFlagName_nil_left (n : List Char) :
    strIsEventFlagName [] n = true := by
  cases n <;> rfl

theorem strIsEventFlagName_iff (s n : List Char) :
    strIsEventFlagName s n = true ↔
      (s.map upcase <+: n ∨ n <+: s.map upcase) := by
  induction s generalizing n with
  | nil =>
    simpa [strIsEventFlagName_nil_left] using Or.inl (@List.nil_prefix _ n)
  | cons c s ih =>
    cases n with
    | nil =>
      simpa [strIsEventFlagName] using Or.inr (List.nil_prefix)
    | cons d m =>
      by_cases h : upcase c = d
      · simp [strIsEventFlagName, h, List.cons_prefix_cons, ih, eq_comm]
      · rw [show strIsEventFlagName (c :: s) (d :: m)
            = if upcase c ≠ d then false else strIsEventFlagName s m from rfl]
        rw [if_pos h]
        simp only [Bool.false_eq_true, false_iff, List.map_cons]
        rintro (hp | hp)
        · exact h (List.cons_prefix_cons.mp hp).1
        · exact h (List.cons_prefix_cons.mp hp).1.symm

theorem eventFlagMaps_flag_pos : ∀ e ∈ eventFlagMaps, e.flag ≠ 0 := by decide

theorem parse_own_name : ∀ e ∈ eventFlagMaps, strToEventFlag e.name.data = e.flag := by
  decide

theorem printed_own_name : ∀ e ∈ eventFlagMaps, e.name ∈ printedNames e.flag := by
  decide

theorem strToEventFlag_ne_zero_iff (s : List Char) :
    strToEventFlag s ≠ 0 ↔
      ∃ e ∈ eventFlagMaps, strIsEventFlagName s e.name.data = true := by
  unfold strToEventFlag
  cases hf : eventFlagMaps.find? (fun e => strIsEventFlagName s e.name.data) with
  | none =>
    constructor
    · intro h; exact absurd rfl h
    · rintro ⟨e, he, hm⟩
      have := List.find?_eq_none.mp hf e he
      simp [hm] at this
  | some e =>
    constructor
    · intro _
      exact ⟨e, List.mem_of_find?_eq_some hf, by simpa using List.find?_some hf⟩
    · intro _
      exact eventFlagMaps_flag_pos e (List.mem_of_find?_eq_some hf)

/-- If the lexer accepts a token, the returned flag is the flag of some
table entry. -/
theorem strToEventFlag_mem (s : List Char) (h : strToEventFlag s ≠ 0) :
    ∃ e ∈ eventFlagMaps, strToEventFlag s = e.flag := by
  unfold strToEventFlag at h ⊢
  cases hf : eventFlagMaps.find? (fun e => strIsEventFlagName s e.name.data) with
  | none => rw [hf] at h; exact absurd rfl h
  | some e => exact ⟨e, List.mem_of_find?_eq_some hf, rfl⟩

/-- What `printEventFlags` builds: the descriptor text, then " NAME" for
every printed name in table order, then a newline. -/
theorem printEventFlags_eq (flags : Nat) (t : String) :
    printEventFlags flags t
      = t ++ strConcat ((printedNames flags).map (fun n => " " ++ n)) ++ "\n" := by
  have aux : ∀ (l : List EventFlagMap) (acc : String),
      l.foldl (fun out e => if e.flag &&& flags ≠ 0 then out ++ " " ++ e.name else out) acc
        = acc ++ strConcat (((l.filter (fun e => e.flag &&& flags ≠ 0)).map
            (fun e => e.name)).map (fun n => " " ++ n)) := by
    intro l
    induction l with
    | nil => intro acc; simp [strConcat]
    | cons e l ih =>
      intro acc
      by_cases h : e.flag &&& flags ≠ 0
      · rw [List.foldl_cons, if_pos h, List.filter_cons_of_pos (by simpa using h)]
        rw [List.map_cons, List.map_cons, ih]
        simp only [strConcat, List.foldr_cons]
        simp [String.append_assoc]
      · rw [List.foldl_cons, if_neg h, List.filter_cons_of_neg (by simpa using h)]
        exact ih acc
  rw [printEventFlags, printedNames, aux]

end Poll

/-- Claim C4 (amended): a command-line token is classified as an event
name exactly when its upper-cased character sequence and the character
sequence of some event-table name agree up to the length of the shorter
one — that is, one of the two is a prefix of the other.  Every
case-insensitive exact match is therefore accepted, but so are strict
prefixes and extensions of table names (the original claim's
"case-insensitive exact match" is refuted by `claim_C4_counterexample`). -/
theorem claim_C4 (s : List Char) :
    Poll.strToEventFlag s ≠ 0 ↔
      ∃ e ∈ Poll.eventFlagMaps,
        (s.map Poll.upcase <+: e.name.data ∨ e.name.data <+: s.map Poll.upcase) := by
  rw [Poll.strToEventFlag_ne_zero_iff]
  constructor
  · rintro ⟨e, he, hm⟩
    exact ⟨e, he, (Poll.strIsEventFlagName_iff s e.name.data).mp hm⟩
  · rintro ⟨e, he, hm⟩
    exact ⟨e, he, (Poll.strIsEventFlagName_iff s e.name.data).mpr hm⟩

/-- Claim C4 counterexample: the token "I" is a case-insensitive exact
match of no event-table name, yet the lexer classifies it as the event
`IN` (flag `0x001`), and `poll I` consequently polls descriptor 0 for
`POLLIN`. -/
theorem claim_C4_counterexample :
    Poll.strToEventFlag "I".data = 0x001 ∧
    (∀ e ∈ Poll.eventFlagMaps, PollSpec.ciExactMatch "I" e.name = false) ∧
    Poll.mainParse ["I"] = .poll [⟨0, 0x001, "0"⟩] (-1) :=
  ⟨by decide, by decide, by decide⟩

/-- Claim C6 (confirmed): parse table and print table are the same table.
Every table entry's name parses back to exactly its own flag and is
printed for any result mask containing that flag; every name the reporter
can ever print is a table name that parses to a nonzero flag of that very
entry; every flag the lexer can return is a table flag whose name is
printable; and an output line consists of the descriptor text followed by
exactly the printed names in table order. -/
theorem claim_C6 :
    (∀ e ∈ Poll.eventFlagMaps,
      Poll.strToEventFlag e.name.data = e.flag ∧ e.name ∈ Poll.printedNames e.flag) ∧
    (∀ flags : Nat, ∀ n ∈ Poll.printedNames flags,
      ∃ e ∈ Poll.eventFlagMaps,
        n = e.name ∧ Poll.strToEventFlag n.data = e.flag ∧ e.flag &&& flags ≠ 0) ∧
    (∀ s : List Char, Poll.strToEventFlag s ≠ 0 →
      ∃ e ∈ Poll.eventFlagMaps,
        Poll.strToEventFlag s = e.flag ∧ e.name ∈ Poll.printedNames e.flag) ∧
    (∀ (flags : Nat) (t : String),
      Poll.printEventFlags flags t
        = t ++ Poll.strConcat ((Poll.printedNames flags).map (fun n => " " ++ n)) ++ "\n") := by
  refine ⟨?_, ?_, ?_, ?_⟩
  · intro e he
    exact ⟨Poll.parse_own_name e he, Poll.printed_own_name e he⟩
  · intro flags n hn
    rw [Poll.printedNames] at hn
    obtain ⟨e, hef, rfl⟩ := List.mem_map.mp hn
    obtain ⟨hem, hcond⟩ := List.mem_filter.mp hef
    exact ⟨e, hem, rfl, Poll.parse_own_name e hem, by simpa using hcond⟩
  · intro s h
    obtain ⟨e, hem, hflag⟩ := Poll.strToEventFlag_mem s h
    exact ⟨e, hem, hflag, Poll.printed_own_name e hem⟩
  · exact Poll.printEventFlags_eq

/-- Claim C6 witness: instantiation at the table entry for `IN`. -/
theorem claim_C6_witness :
    Poll.strToEventFlag "IN".data = 0x001 ∧ "IN" ∈ Poll.printedNames 0x001 :=
  claim_C6.1 ⟨0x001, "IN"⟩ (by decide)

/-- Claim C9 (confirmed): the integer parsers of both variants accept the
empty string as the non-negative integer 0, and in the argument loop an
empty token therefore takes the descriptor branch and opens a group for
descriptor 0 (with the empty token as its name string) instead of being
rejected as a usage error. -/
theorem claim_C9 :
    Poll.strToInt "".data = (0, 0) ∧
    P000.parse_nonnegative_int "".data = some 0 ∧
    ∀ (st : Poll.PState) (rest : List String),
      Poll.mainLoop ("" :: rest) st = Poll.mainLoop rest (Poll.openFDGroup st 0 "") :=
  ⟨rfl, rfl, fun _ _ => rfl⟩

/-- Claim C8 (amended): in the variants that implement a version option
(src/unnamed/part_000 and part_001), `-V` and `--version` print the
version string to standard output and exit 0, exactly as the help option
does; the poll.c variant has no version option at all and exits 3 with an
"Unrecognized option" diagnostic (see `claim_C8_counterexample`). -/
theorem claim_C8 (arg0 : String) :
    P000.main_start arg0 ["-V"] = .exit 0 P000.version_text "" ∧
    P000.main_start arg0 ["--version"] = .exit 0 P000.version_text "" ∧
    P000.main_start arg0 ["-h"] = .exit 0 P000.help_text "" ∧
    P000.main_start arg0 ["--help"] = .exit 0 P000.help_text "" :=
  ⟨rfl, rfl, rfl, rfl⟩

/-- Claim C8 counterexample: under poll.c, `poll -V` and `poll --version`
do not print a version string and exit 0 — they exit 3 (syntax error)
with nothing on standard output. -/
theorem claim_C8_counterexample :
    Poll.mainParse ["-V"]
      = .exitEarly Poll.EXIT_SYNTAX_ERROR ""
          (Poll.unrecognizedOption ++ "-V" ++ Poll.helpText) ∧
    Poll.mainParse ["--version"]
      = .exitEarly Poll.EXIT_SYNTAX_ERROR ""
          (Poll.unrecognizedOption ++ "--version" ++ Poll.helpText) :=
  ⟨by decide, by decide⟩

/-! ## The result-reporting loops and the exit code (claims C3 and C7) -/

namespace Poll

/-- If no entry of `es` has a nonzero result mask, no entry's result mask
overlaps its request mask. -/
theorem any_overlap_false (es : List PollResult)
    (h : (es.filter (fun e => e.revents ≠ 0)).length = 0) :
    es.any (fun e => e.revents &&& e.events ≠ 0) = false := by
  rw [List.length_eq_zero] at h
  rw [List.any_eq_false]
  intro e he
  have : ¬ e.revents ≠ 0 := by
    have := List.filter_eq_nil.mp h e he
    simpa using this
  have hz : e.revents = 0 := by simpa using this
  simp [hz]

/-- When `result` counts the entries with nonzero `revents` (the poll(2)
postcondition), the poll.c reporting loop visits all of them and its final
exit code is `EXIT_POLLED_EVENT_OR_INFO` exactly when some entry's result
mask overlaps its requested mask, independently of the write oracle. -/
theorem reportLoopC_exitcode (oracle : Nat → Bool) :
    ∀ (entries : List PollResult) (k code : Nat),
      (reportLoopC oracle entries
          ((entries.filter (fun e => e.revents ≠ 0)).length) k code).2
        = if entries.any (fun e => e.revents &&& e.events ≠ 0) then
            EXIT_POLLED_EVENT_OR_INFO
          else code := by
  intro entries
  induction entries with
  | nil => intro k code; simp [reportLoopC]
  | cons e es ih =>
    intro k code
    by_cases he : e.revents = 0
    · rw [List.filter_cons_of_neg (by simpa using he)]
      have hany : (e :: es).any (fun e => e.revents &&& e.events ≠ 0)
          = es.any (fun e => e.revents &&& e.events ≠ 0) := by
        simp [he]
      rw [hany]
      cases hc : (es.filter (fun e => e.revents ≠ 0)).length with
      | zero =>
        rw [any_overlap_false es hc]
        simp [reportLoopC]
      | succ m =>
        simp only [reportLoopC]
        rw [if_neg (show ¬ e.revents ≠ 0 by simp [he])]
        rw [← hc]
        exact ih k code
    · rw [List.filter_cons_of_pos (by simpa using he), List.length_cons]
      have hstep :
          (reportLoopC oracle (e :: es)
              ((es.filter (fun e => e.revents ≠ 0)).length + 1) k code).2
            = (reportLoopC oracle es ((es.filter (fun e => e.revents ≠ 0)).length)
                (k + 1)
                (if e.revents &&& e.events ≠ 0 then EXIT_POLLED_EVENT_OR_INFO
                 else code)).2 := by
        simp only [reportLoopC]
        rw [if_pos he]
      rw [hstep, ih (k + 1)]
      by_cases hee : e.revents &&& e.events ≠ 0 <;>
        by_cases ha : es.any (fun e => e.revents &&& e.events ≠ 0) = true <;>
          simp [hee, ha]

end Poll

/-- Claim C3 (confirmed): when the reporting loop runs with `result` equal
to the number of entries with nonzero result mask (what a successful
positive `poll(2)` returns) the final exit code is 0 exactly when some
reported entry has `revents &&& events ≠ 0`, and otherwise it is 1 — the
loop starts from `EXIT_UNPOLLED_EVENT` and only ever lowers it to
`EXIT_POLLED_EVENT_OR_INFO`. -/
theorem claim_C3 (entries : List Poll.PollResult) (result : Nat)
    (hcount : result = (entries.filter (fun e => e.revents ≠ 0)).length)
    (hpos : 0 < result) :
    ((Poll.reportLoopC (fun _ => true) entries result 0 Poll.EXIT_UNPOLLED_EVENT).2
        = Poll.EXIT_POLLED_EVENT_OR_INFO
      ↔ ∃ e ∈ entries, e.revents &&& e.events ≠ 0) ∧
    ((Poll.reportLoopC (fun _ => true) entries result 0 Poll.EXIT_UNPOLLED_EVENT).2
        = Poll.EXIT_POLLED_EVENT_OR_INFO
     ∨ (Poll.reportLoopC (fun _ => true) entries result 0 Poll.EXIT_UNPOLLED_EVENT).2
        = Poll.EXIT_UNPOLLED_EVENT) := by
  subst hcount
  rw [Poll.reportLoopC_exitcode]
  by_cases ha : entries.any (fun e => e.revents &&& e.events ≠ 0) = true
  · rw [if_pos ha]
    refine ⟨?_, Or.inl rfl⟩
    constructor
    · intro _
      obtain ⟨e, he, hp⟩ := List.any_eq_true.mp ha
      exact ⟨e, he, by simpa using hp⟩
    · intro _; rfl
  · rw [if_neg ha]
    refine ⟨?_, Or.inr rfl⟩
    constructor
    · intro h
      exact absurd h (by simp [Poll.EXIT_UNPOLLED_EVENT, Poll.EXIT_POLLED_EVENT_OR_INFO])
    · rintro ⟨e, he, hp⟩
      exact absurd (List.any_eq_true.mpr ⟨e, he, by simpa using hp⟩) ha

/-- Claim C3 witness: one entry with requested mask 1 and result mask 1
gives exit code 0. -/
theorem claim_C3_witness :
    (Poll.reportLoopC (fun _ => true) [⟨1, 1, "0"⟩] 1 0 Poll.EXIT_UNPOLLED_EVENT).2
      = Poll.EXIT_POLLED_EVENT_OR_INFO :=
  (claim_C3 [⟨1, 1, "0"⟩] 1 (by decide) (by decide)).1.mpr
    ⟨⟨1, 1, "0"⟩, by decide, by decide⟩

namespace P000

/-- If the `m`-th output write is the first one to fail and at least `m+1`
entries have events to report, part_000's reporting loop stops right
there: it returns exit code 4 with exactly the first `m` lines emitted. -/
theorem reportLoop000_abort (printLine : Poll.PollResult → String)
    (oracle : Nat → Bool) :
    ∀ (entries : List Poll.PollResult) (k code m : Nat),
      (∀ j, j < m → oracle (k + j) = true) → oracle (k + m) = false →
      m < (entries.filter (fun e => e.revents ≠ 0)).length →
      reportLoop000 printLine oracle entries
          ((entries.filter (fun e => e.revents ≠ 0)).length) k code
        = (((entries.filter (fun e => e.revents ≠ 0)).take m).map printLine, 4) := by
  intro entries
  induction entries with
  | nil => intro k code m _ _ hm; simp at hm
  | cons e es ih =>
    intro k code m hok hfail hm
    by_cases he : e.revents = 0
    · rw [List.filter_cons_of_neg (by simpa using he)] at hm ⊢
      obtain ⟨n, hn⟩ : ∃ n, (es.filter (fun e => e.revents ≠ 0)).length = n + 1 :=
        ⟨(es.filter (fun e => e.revents ≠ 0)).length - 1, by omega⟩
      rw [hn]
      simp only [reportLoop000]
      rw [if_neg (show ¬ e.revents ≠ 0 by simp [he])]
      rw [← hn]
      exact ih k code m hok hfail hm
    · rw [List.filter_cons_of_pos (by simpa using he)] at hm ⊢
      rw [List.length_cons] at hm
      rw [List.length_cons]
      cases m with
      | zero =>
        have h0 : oracle k = false := by simpa using hfail
        simp [reportLoop000, he, h0]
      | succ m' =>
        have h0 : oracle k = true := by
          have := hok 0 (Nat.succ_pos m')
          simpa using this
        have hok' : ∀ j, j < m' → oracle (k + 1 + j) = true := by
          intro j hj
          rw [show k + 1 + j = k + (j + 1) by omega]
          exact hok (j + 1) (by omega)
        have hfail' : oracle (k + 1 + m') = false := by
          rw [show k + 1 + m' = k + (m' + 1) by omega]
          exact hfail
        have ihe := ih (k + 1)
          (if e.revents &&& e.events ≠ 0 then 0 else code) m' hok' hfail' (by omega)
        simp only [reportLoop000]
        rw [if_pos he, h0, if_pos rfl]
        rw [ihe]
        simp

end P000

/-- Claim C7 (amended): in the stdio variant (src/unnamed/part_000), if
the `m`-th result-line write is the first to fail, the program aborts
immediately with exit code `EXIT_EXECUTION_ERROR` (4), with exactly the
lines written before the failure emitted and none after; the poll.c
variant, by contrast, never checks the result of `write(2)` for result
lines, keeps printing and derives its exit code as if every write had
succeeded (see `claim_C7_counterexample`). -/
theorem claim_C7 (printLine : Poll.PollResult → String) (oracle : Nat → Bool)
    (entries : List Poll.PollResult) (result m : Nat)
    (hcount : result = (entries.filter (fun e => e.revents ≠ 0)).length)
    (hok : ∀ j, j < m → oracle j = true) (hfail : oracle m = false)
    (hm : m < result) :
    P000.reportLoop000 printLine oracle entries result 0 1
      = (((entries.filter (fun e => e.revents ≠ 0)).take m).map printLine, 4) := by
  subst hcount
  exact P000.reportLoop000_abort printLine oracle entries 0 1 m
    (fun j hj => by simpa using hok j hj) (by simpa using hfail) hm

/-- Claim C7 witness: two reportable entries, the write of the second
line fails — part_000's loop returns the first line only and exit code 4. -/
theorem claim_C7_witness :
    P000.reportLoop000 (fun e => e.text) (fun k => k == 0)
        [⟨1, 1, "a"⟩, ⟨1, 1, "b"⟩] 2 0 1
      = (["a"], 4) := by
  have h := claim_C7 (fun e => e.text) (fun k => k == 0)
    [⟨1, 1, "a"⟩, ⟨1, 1, "b"⟩] 2 1 (by decide)
    (fun j hj => by
      have : j = 0 := by omega
      subst this; rfl)
    (by decide) (by decide)
  simpa using h

/-- Claim C7 counterexample: under poll.c a failed result-line write does
not abort the program.  With every write failing, a single reportable
entry still produces exit code 0 (not 4); and with only the first of two
writes failing, the second line is still written afterwards. -/
theorem claim_C7_counterexample :
    (Poll.reportLoopC (fun _ => false) [⟨1, 1, "0"⟩] 1 0 Poll.EXIT_UNPOLLED_EVENT)
      = ([], Poll.EXIT_POLLED_EVENT_OR_INFO) ∧
    (Poll.reportLoopC (fun k => k != 0) [⟨1, 1, "0"⟩, ⟨2, 2, "1"⟩] 2 0
        Poll.EXIT_UNPOLLED_EVENT).1
      = [Poll.printEventFlags 2 "1"] :=
  ⟨by decide, by decide⟩

/-! ## Usage errors (claim C5) -/

namespace Poll

theorem strAfter_strAfter (s : String) (m n : Nat) :
    strAfter (strAfter s m) n = strAfter s (m + n) := by
  simp [strAfter, List.drop_drop, Nat.add_comm]

theorem parseTimeoutValue_failure (t : String) (c : Bool) (err : String)
    (h : parseTimeoutValue t c = .exit_failure err) :
    err = timeoutOverflowedInt ++ t ++ "\n" ∨ err = timeoutInvalid ++ t ++ "\n" := by
  simp only [parseTimeoutValue] at h
  split at h
  · exact absurd h (by simp)
  · split at h
    · exact Or.inl (by injection h with h'; exact h'.symm)
    · exact Or.inr (by injection h with h'; exact h'.symm)

theorem parseOption_failure_shape (tok : String) (next? : Option String) (err : String)
    (h : parseOption tok next? = .exit_failure err) :
    err = timeoutMissing
    ∨ err = unrecognizedOption ++ tok ++ helpText
    ∨ (∃ t : String,
        (next? = some t ∨ t = strAfter tok 2 ∨ t = strAfter tok 10) ∧
        (err = timeoutOverflowedInt ++ t ++ "\n" ∨ err = timeoutInvalid ++ t ++ "\n")) := by
  simp only [parseOption] at h
  split at h
  · exact absurd h (by simp)
  · split at h
    · exact absurd h (by simp)
    · split at h
      · exact absurd h (by simp)
      · split at h
        · exact absurd h (by simp)
        · split at h
          · split at h
            · exact Or.inl (by injection h with h'; exact h'.symm)
            · rename_i nxt
              exact Or.inr (Or.inr ⟨nxt, Or.inl rfl, parseTimeoutValue_failure _ _ _ h⟩)
          · split at h
            · refine Or.inr (Or.inr ⟨strAfter tok 2, Or.inr (Or.inl rfl), ?_⟩)
              have := parseTimeoutValue_failure _ _ _ h
              rwa [strAfter_strAfter] at this
            · split at h
              · refine Or.inr (Or.inr ⟨strAfter tok 10, Or.inr (Or.inr rfl), ?_⟩)
                have := parseTimeoutValue_failure _ _ _ h
                rwa [strAfter_strAfter] at this
              · exact Or.inr (Or.inl (by injection h with h'; exact h'.symm))

theorem usageErrShape_cons (tok : String) (rest : List String) (err : String)
    (h : usageErrShape rest err) : usageErrShape (tok :: rest) err := by
  rcases h with h | ⟨t, ht, he⟩ | ⟨t, ht, he⟩ | ⟨t, ht, he⟩ | ⟨t, ht, hv⟩
  · exact Or.inl h
  · exact Or.inr (Or.inl ⟨t, List.mem_cons_of_mem tok ht, he⟩)
  · exact Or.inr (Or.inr (Or.inl ⟨t, List.mem_cons_of_mem tok ht, he⟩))
  · exact Or.inr (Or.inr (Or.inr (Or.inl ⟨t, List.mem_cons_of_mem tok ht, he⟩)))
  · exact Or.inr (Or.inr (Or.inr (Or.inr ⟨t, List.mem_cons_of_mem tok ht, hv⟩)))

theorem mainLoop_syntax_error :
    ∀ (n : Nat) (args : List String), args.length ≤ n →
    ∀ (st : PState) (code : Nat) (out err : String),
      mainLoop args st = .exitEarly code out err → code = EXIT_SYNTAX_ERROR →
      out = "" ∧ usageErrShape args err := by
  intro n
  induction n with
  | zero =>
    intro args hlen st code out err h _
    have : args = [] := List.length_eq_zero.mp (Nat.le_zero.mp hlen)
    subst this
    exact absurd h (by simp [mainLoop])
  | succ n ih =>
    intro args hlen st code out err h hc
    cases args with
    | nil => exact absurd h (by simp [mainLoop])
    | cons tok rest =>
      simp only [mainLoop] at h
      split at h
      · -- descriptor token
        obtain ⟨ho, hs⟩ := ih rest (by simp at hlen; omega) _ code out err h hc
        exact ⟨ho, usageErrShape_cons tok rest err hs⟩
      · split at h
        · -- fd overflow
          injection h with h1 h2 h3
          exact ⟨h2.symm, Or.inr (Or.inl ⟨tok, List.mem_cons_self tok rest, h3.symm⟩)⟩
        · -- option / event / error
          split at h
          · -- exit_success: exit code 0, contradicts code = 3
            injection h with h1 _ _
            rw [← h1] at hc
            exact absurd hc (by decide)
          · -- exit_failure
            rename_i e' hopt
            injection h with h1 h2 h3
            subst h3
            refine ⟨h2.symm, ?_⟩
            rcases parseOption_failure_shape tok rest.head? e'
              (by rw [hopt]) with hm | hu | ⟨t, hcond, hmsg⟩
            · exact Or.inl hm
            · exact Or.inr (Or.inr (Or.inl ⟨tok, List.mem_cons_self tok rest, hu⟩))
            · rcases hcond with hnext | ht | ht
              · cases rest with
                | nil => exact absurd hnext (by simp)
                | cons r rs =>
                  have : t = r := by simpa using hnext.symm
                  subst this
                  exact Or.inr (Or.inr (Or.inr (Or.inr
                    ⟨t, List.mem_cons_of_mem tok (List.mem_cons_self t rs),
                      t, Or.inl rfl, hmsg⟩)))
              · exact Or.inr (Or.inr (Or.inr (Or.inr
                  ⟨tok, List.mem_cons_self tok rest, t, Or.inr (Or.inl ht), hmsg⟩)))
              · exact Or.inr (Or.inr (Or.inr (Or.inr
                  ⟨tok, List.mem_cons_self tok rest, t, Or.inr (Or.inr ht), hmsg⟩)))
          · -- parse_good with a consumed following argument
            rename_i t' hopt
            cases rest with
            | nil =>
              injection h with h1 h2 h3
              exact ⟨h2.symm, Or.inl h3.symm⟩
            | cons r rs =>
              obtain ⟨ho, hs⟩ := ih rs (by simp at hlen ⊢; omega) _ code out err h hc
              exact ⟨ho, usageErrShape_cons tok (r :: rs) err
                (usageErrShape_cons r rs err hs)⟩
          · -- parse_good inline
            obtain ⟨ho, hs⟩ := ih rest (by simp at hlen ⊢; omega) _ code out err h hc
            exact ⟨ho, usageErrShape_cons tok rest err hs⟩
          · -- parse_bad: event name or unrecognized event
            split at h
            · obtain ⟨ho, hs⟩ := ih rest (by simp at hlen ⊢; omega) _ code out err h hc
              exact ⟨ho, usageErrShape_cons tok rest err hs⟩
            · injection h with h1 h2 h3
              exact ⟨h2.symm, Or.inr (Or.inr (Or.inr (Or.inl
                ⟨tok, List.mem_cons_self tok rest, h3.symm⟩)))⟩

end Poll

/-- Claim C5 (amended): every usage error terminates the parse immediately
with exit code 3 and no output on standard output, and the diagnostic on
standard error names the offending token — except in two respects forced
by the code: a timeout option with a missing argument prints a fixed
message naming no token, and for the inline `-t<val>`/`--timeout=<val>`
forms the diagnostic names the invalid value part rather than the whole
token (see `usageErrShape`). -/
theorem claim_C5 (args : List String) (code : Nat) (out err : String)
    (h : Poll.mainParse args = .exitEarly code out err)
    (hc : code = Poll.EXIT_SYNTAX_ERROR) :
    out = "" ∧ Poll.usageErrShape args err :=
  Poll.mainLoop_syntax_error args.length args le_rfl Poll.initState code out err h hc

/-- Claim C5 counterexample: `poll -t` is a usage error (exit 3), but its
diagnostic is the fixed missing-argument message, which does not name the
offending token `-t` (or any argument token). -/
theorem claim_C5_counterexample :
    Poll.mainParse ["-t"] = .exitEarly Poll.EXIT_SYNTAX_ERROR "" Poll.timeoutMissing ∧
    ∀ tok ∈ ["-t"], ¬ (tok.data <:+: Poll.timeoutMissing.data) :=
  ⟨by decide, by decide⟩

/-- Claim C5 witness: `poll 0 FROBNICATE` exits 3 with nothing on standard
output and a diagnostic of one of the token-naming shapes. -/
theorem claim_C5_witness :
    "" = "" ∧ Poll.usageErrShape ["0", "FROBNICATE"]
        (Poll.unrecognizedEvent ++ "FROBNICATE" ++ Poll.eventList) :=
  claim_C5 ["0", "FROBNICATE"] Poll.EXIT_SYNTAX_ERROR ""
    (Poll.unrecognizedEvent ++ "FROBNICATE" ++ Poll.eventList) (by decide) rfl

/-! ## The deduplicator (claims C2 and C10) -/

namespace Poll

instance : LeftCommutative (fun (x y : Nat) => x ||| y) :=
  ⟨fun a b c => by rw [← Nat.lor_assoc, Nat.lor_comm a b, Nat.lor_assoc]⟩

theorem orForFd_nil (d : Nat) : orForFd [] d = 0 := rfl

theorem orForFd_cons (x : FDGroup) (xs : List FDGroup) (d : Nat) :
    orForFd (x :: xs) d = (if x.fd = d then x.events else 0) ||| orForFd xs d := by
  by_cases h : x.fd = d <;> simp [orForFd, List.filter_cons, h]

theorem orForFd_append (xs ys : List FDGroup) (d : Nat) :
    orForFd (xs ++ ys) d = orForFd xs d ||| orForFd ys d := by
  induction xs with
  | nil => simp [orForFd_nil]
  | cons x xs ih => rw [List.cons_append, orForFd_cons, orForFd_cons, ih, Nat.lor_assoc]

theorem orForFd_perm {l l' : List FDGroup} (h : l.Perm l') (d : Nat) :
    orForFd l d = orForFd l' d :=
  List.Perm.foldr_eq (((h.filter _).map _)) 0

theorem orForFd_eq_zero (l : List FDGroup) (d : Nat)
    (h : d ∉ l.map (fun g => g.fd)) : orForFd l d = 0 := by
  induction l with
  | nil => rfl
  | cons x xs ih =>
    rw [List.map_cons] at h
    rw [orForFd_cons, if_neg (fun he => h (by simp [he])), ih (fun hm => h (by simp [hm]))]
    simp

theorem orForFd_of_nodup (l : List FDGroup) (x : FDGroup)
    (hnd : (l.map (fun g => g.fd)).Nodup) (hx : x ∈ l) :
    orForFd l x.fd = x.events := by
  induction l with
  | nil => cases hx
  | cons y ys ih =>
    rw [List.map_cons, List.nodup_cons] at hnd
    rcases List.mem_cons.mp hx with rfl | hx'
    · rw [orForFd_cons, if_pos rfl, orForFd_eq_zero ys _ hnd.1]
      simp
    · have hne : y.fd ≠ x.fd := fun he =>
        hnd.1 (he ▸ List.mem_map.mpr ⟨x, hx', rfl⟩)
      rw [orForFd_cons, if_neg hne, ih hnd.2 hx']
      simp

theorem getD_set_ne' {α : Type} (l : List α) {j p : Nat} (h : j ≠ p) (x d : α) :
    (l.set j x).getD p d = l.getD p d := by
  simp [List.getD_eq_getElem?_getD, List.getElem?_set_ne h]

theorem getD_set_self' {α : Type} (l : List α) {j : Nat} (h : j < l.length) (x d : α) :
    (l.set j x).getD j d = x := by
  simp [List.getD_eq_getElem?_getD, List.getElem?_set_self h]

theorem getD_take' {α : Type} (l : List α) {n m : Nat} (h : n < m) (d : α) :
    (l.take m).getD n d = l.getD n d := by
  by_cases hl : n < l.length
  · simp [List.getD_eq_getElem?_getD, List.getElem?_take, h]
  · have h1 : l.length ≤ n := by omega
    have h2 : (l.take m).length ≤ n := by simp [List.length_take]; omega
    simp [List.getD_eq_getElem?_getD, List.getElem?_eq_none h1, List.getElem?_eq_none h2]

theorem getD_mem {α : Type} (l : List α) {n : Nat} (h : n < l.length) (d : α) :
    l.getD n d ∈ l := by
  simp only [List.getD_eq_getElem?_getD, List.getElem?_eq_getElem h, Option.getD_some]
  exact List.getElem_mem h

/-- Splitting a list at an in-bounds index. -/
theorem take_getD_drop {α : Type} (l : List α) {n : Nat} (h : n < l.length) (d : α) :
    l.take n ++ l.getD n d :: l.drop (n + 1) = l := by
  have h1 : l.getD n d = l[n] := by
    simp [List.getD_eq_getElem?_getD, List.getElem?_eq_getElem h]
  rw [h1, List.getElem_cons_drop, List.take_append_drop]

theorem mergeStep_eq (a : List FDGroup) (nfds g i : Nat)
    (hg : g < i) (hi : i < nfds) :
    mergeStep a nfds g i
      = (a.set g { a.getD g dflt with
            events := (a.getD g dflt).events ||| (a.getD i dflt).events }).set i
          (a.getD (nfds - 1) dflt) := by
  simp only [mergeStep]
  congr 1
  exact getD_set_ne' a (by omega) _ _

theorem mergeStep_length (a : List FDGroup) (nfds g i : Nat) :
    (mergeStep a nfds g i).length = a.length := by
  simp [mergeStep]

theorem mergeStep_getD_lt (a : List FDGroup) {nfds g i p : Nat}
    (hg : g < i) (hi : i < nfds) (hp : p < i) (hpg : p ≠ g) :
    (mergeStep a nfds g i).getD p dflt = a.getD p dflt := by
  rw [mergeStep_eq a nfds g i hg hi, getD_set_ne' _ (by omega),
    getD_set_ne' _ (Ne.symm hpg)]

theorem mergeStep_getD_gt (a : List FDGroup) {nfds g i p : Nat}
    (hg : g < i) (hi : i < nfds) (hp : i < p) :
    (mergeStep a nfds g i).getD p dflt = a.getD p dflt := by
  rw [mergeStep_eq a nfds g i hg hi, getD_set_ne' _ (by omega),
    getD_set_ne' _ (by omega)]

theorem mergeStep_getD_pivot (a : List FDGroup) {nfds g i : Nat}
    (hg : g < i) (hi : i < nfds) (hn : nfds ≤ a.length) :
    (mergeStep a nfds g i).getD g dflt
      = { a.getD g dflt with
          events := (a.getD g dflt).events ||| (a.getD i dflt).events } := by
  rw [mergeStep_eq a nfds g i hg hi, getD_set_ne' _ (by omega),
    getD_set_self' _ (by omega)]

theorem mergeStep_getD_at_i (a : List FDGroup) {nfds g i : Nat}
    (hg : g < i) (hi : i < nfds) (hn : nfds ≤ a.length) :
    (mergeStep a nfds g i).getD i dflt = a.getD (nfds - 1) dflt := by
  rw [mergeStep_eq a nfds g i hg hi, getD_set_self' _ (by simp; omega)]

/-- The live region before and after one merge, as permutations of a
common shape: before, the pivot `ag` and the duplicate `ai` sit among the
other live entries; after, the merged entry `m` replaces both. -/
theorem mergeStep_decomp (a : List FDGroup) {nfds g i : Nat}
    (hg : g < i) (hi : i < nfds) (hn : nfds ≤ a.length) :
    ∃ X Y : List FDGroup,
      (a.take nfds).Perm
        (X ++ a.getD g dflt :: a.getD i dflt :: Y) ∧
      ((mergeStep a nfds g i).take (nfds - 1)).Perm
        (X ++ { a.getD g dflt with
            events := (a.getD g dflt).events ||| (a.getD i dflt).events } :: Y) := by
  have hUlen : (a.take (nfds - 1)).length = nfds - 1 := by
    rw [List.length_take]; omega
  have hOld : a.take nfds = a.take (nfds - 1) ++ [a.getD (nfds - 1) dflt] := by
    have h1 : a.take nfds = a.take ((nfds - 1) + 1) := by
      rw [Nat.sub_add_cancel (by omega)]
    rw [h1, List.take_succ, List.getElem?_eq_getElem (show nfds - 1 < a.length by omega)]
    have h2 : a.getD (nfds - 1) dflt = a[nfds - 1] := by
      simp [List.getD_eq_getElem?_getD,
        List.getElem?_eq_getElem (show nfds - 1 < a.length by omega)]
    rw [h2]
    rfl
  have hNew : (mergeStep a nfds g i).take (nfds - 1)
      = ((a.take (nfds - 1)).set g { a.getD g dflt with
            events := (a.getD g dflt).events ||| (a.getD i dflt).events }).set i
          (a.getD (nfds - 1) dflt) := by
    rw [mergeStep_eq a nfds g i hg hi, List.set_take, List.set_take]
  by_cases hcase : i = nfds - 1
  · -- the duplicate is the last live entry: the move is a no-op and the
    -- shrink drops it
    have hgU : g < (a.take (nfds - 1)).length := by omega
    have hUg : (a.take (nfds - 1)).getD g dflt = a.getD g dflt :=
      getD_take' a (by omega) dflt
    have hUid : a.take (nfds - 1)
        = (a.take (nfds - 1)).take g ++ a.getD g dflt :: (a.take (nfds - 1)).drop (g + 1) := by
      rw [← hUg, take_getD_drop _ hgU]
    refine ⟨(a.take (nfds - 1)).take g, (a.take (nfds - 1)).drop (g + 1), ?_, ?_⟩
    · rw [hOld]
      nth_rewrite 1 [hUid]
      have hai : a.getD (nfds - 1) dflt = a.getD i dflt := by rw [hcase]
      rw [hai, List.append_assoc, List.cons_append]
      refine List.Perm.append_left _ ?_
      refine List.Perm.cons _ ?_
      exact List.perm_append_singleton _ _
    · rw [hNew, List.set_eq_of_length_le (by rw [List.length_set, hUlen]; omega),
        List.set_eq_take_cons_drop _ hgU]
  · -- the duplicate sits strictly inside the live region
    have hiU : i < (a.take (nfds - 1)).length := by omega
    have hgU : g < (a.take (nfds - 1)).length := by omega
    have hgUi : g < ((a.take (nfds - 1)).take i).length := by
      rw [List.length_take]; omega
    have hUg : ((a.take (nfds - 1)).take i).getD g dflt = a.getD g dflt := by
      rw [getD_take' _ (by omega), getD_take' _ (by omega)]
    have hUi : (a.take (nfds - 1)).getD i dflt = a.getD i dflt :=
      getD_take' a (by omega) dflt
    -- decompose the pre-merge live region
    have hU1 : a.take (nfds - 1)
        = (a.take (nfds - 1)).take i ++ a.getD i dflt :: (a.take (nfds - 1)).drop (i + 1) := by
      rw [← hUi, take_getD_drop _ hiU]
    have hU2 : (a.take (nfds - 1)).take i
        = ((a.take (nfds - 1)).take i).take g
            ++ a.getD g dflt :: ((a.take (nfds - 1)).take i).drop (g + 1) := by
      rw [← hUg, take_getD_drop _ hgUi]
    refine ⟨((a.take (nfds - 1)).take i).take g,
      ((a.take (nfds - 1)).take i).drop (g + 1)
        ++ (a.take (nfds - 1)).drop (i + 1) ++ [a.getD (nfds - 1) dflt], ?_, ?_⟩
    · rw [hOld]
      nth_rewrite 1 [hU1]
      nth_rewrite 1 [hU2]
      rw [List.append_assoc, List.append_assoc, List.cons_append, List.cons_append]
      refine List.Perm.append_left _ ?_
      refine List.Perm.cons _ ?_
      -- Y1 ++ ai :: (Z ++ [aL]) ~ ai :: (Y1 ++ Z ++ [aL])
      have := @List.perm_middle _ (a.getD i dflt)
        (((a.take (nfds - 1)).take i).drop (g + 1))
        ((a.take (nfds - 1)).drop (i + 1) ++ [a.getD (nfds - 1) dflt])
      refine this.trans ?_
      refine List.Perm.cons _ ?_
      rw [List.append_assoc]
    · rw [hNew]
      rw [List.set_eq_take_cons_drop _ (show i < ((a.take (nfds - 1)).set g _).length by
        rw [List.length_set]; omega)]
      rw [List.set_take, List.drop_set_of_lt _ _ (by omega),
        List.set_eq_take_cons_drop _ hgUi]
      rw [List.take_take, Nat.min_eq_left (by omega)] at hU2 ⊢
      rw [List.append_assoc, List.cons_append]
      refine List.Perm.append_left _ ?_
      refine List.Perm.cons _ ?_
      -- Y1 ++ aL :: Z ~ Y1 ++ Z ++ [aL]
      rw [List.append_assoc]
      refine List.Perm.append_left _ ?_
      exact (List.perm_append_singleton _ _).symm

theorem mergeStep_or (a : List FDGroup) {nfds g i : Nat}
    (hg : g < i) (hi : i < nfds) (hn : nfds ≤ a.length)
    (hfd : (a.getD i dflt).fd = (a.getD g dflt).fd) (d : Nat) :
    orForFd ((mergeStep a nfds g i).take (nfds - 1)) d = orForFd (a.take nfds) d := by
  obtain ⟨X, Y, hOld, hNew⟩ := mergeStep_decomp a hg hi hn
  rw [orForFd_perm hNew d, orForFd_perm hOld d]
  rw [orForFd_append, orForFd_append, orForFd_cons, orForFd_cons, orForFd_cons]
  congr 1
  by_cases hd : (a.getD g dflt).fd = d
  · rw [if_pos hd, if_pos hd, if_pos (show (a.getD i dflt).fd = d from hfd.trans hd)]
    show ((a.getD g dflt).events ||| (a.getD i dflt).events) ||| orForFd Y d = _
    rw [Nat.lor_assoc]
  · rw [if_neg hd, if_neg hd, if_neg (show ¬ (a.getD i dflt).fd = d from hfd ▸ hd)]
    simp

theorem mergeStep_memfd (a : List FDGroup) {nfds g i : Nat}
    (hg : g < i) (hi : i < nfds) (hn : nfds ≤ a.length)
    (hfd : (a.getD i dflt).fd = (a.getD g dflt).fd) (x : Nat) :
    x ∈ ((mergeStep a nfds g i).take (nfds - 1)).map (fun e => e.fd)
      ↔ x ∈ (a.take nfds).map (fun e => e.fd) := by
  obtain ⟨X, Y, hOld, hNew⟩ := mergeStep_decomp a hg hi hn
  rw [(hNew.map (fun e => e.fd)).mem_iff, (hOld.map (fun e => e.fd)).mem_iff]
  simp only [List.map_append, List.map_cons, List.mem_append, List.mem_cons]
  show _ ∨ x = (a.getD g dflt).fd ∨ _ ↔ _ ∨ x = (a.getD g dflt).fd ∨ x = (a.getD i dflt).fd ∨ _
  rw [hfd]
  tauto

theorem mergeStep_prov (a : List FDGroup) {nfds g i : Nat}
    (hg : g < i) (hi : i < nfds) (hn : nfds ≤ a.length) :
    ∀ y ∈ (mergeStep a nfds g i).take (nfds - 1),
      ∃ z ∈ a.take nfds, z.fd = y.fd ∧ z.text = y.text := by
  obtain ⟨X, Y, hOld, hNew⟩ := mergeStep_decomp a hg hi hn
  intro y hy
  rw [hNew.mem_iff] at hy
  rcases List.mem_append.mp hy with hX | hmy
  · exact ⟨y, hOld.mem_iff.mpr (List.mem_append.mpr (Or.inl hX)), rfl, rfl⟩
  · rcases List.mem_cons.mp hmy with rfl | hY
    · exact ⟨a.getD g dflt,
        hOld.mem_iff.mpr (List.mem_append.mpr (Or.inr (List.mem_cons_self _ _))),
        rfl, rfl⟩
    · exact ⟨y, hOld.mem_iff.mpr (List.mem_append.mpr (Or.inr
        (List.mem_cons_of_mem _ (List.mem_cons_of_mem _ hY)))), rfl, rfl⟩

theorem mergeInner_basic :
    ∀ (fuel : Nat) (a : List FDGroup) (nfds g i : Nat), nfds - i ≤ fuel →
      (mergeInner a nfds g i).2 ≤ nfds ∧ (mergeInner a nfds g i).1.length = a.length ∧
      (i ≤ nfds → i ≤ (mergeInner a nfds g i).2) := by
  intro fuel
  induction fuel with
  | zero =>
    intro a nfds g i hf
    rw [mergeInner, dif_neg (show ¬ i < nfds by omega)]
    exact ⟨le_rfl, rfl, fun h => h⟩
  | succ n ih =>
    intro a nfds g i hf
    rw [mergeInner]
    by_cases h : i < nfds
    · rw [dif_pos h]
      by_cases hfd : (a.getD i dflt).fd = (a.getD g dflt).fd
      · rw [if_pos hfd]
        obtain ⟨h1, h2, h3⟩ := ih (mergeStep a nfds g i) (nfds - 1) g i (by omega)
        exact ⟨by omega, by rw [h2, mergeStep_length], fun _ => h3 (by omega)⟩
      · rw [if_neg hfd]
        obtain ⟨h1, h2, h3⟩ := ih a nfds g (i + 1) (by omega)
        exact ⟨h1, h2, fun _ => by have := h3 (by omega); omega⟩
    · rw [dif_neg h]
      exact ⟨le_rfl, rfl, fun hi' => hi'⟩

theorem mergeInner_nfds_le (a : List FDGroup) (nfds g i : Nat) :
    (mergeInner a nfds g i).2 ≤ nfds :=
  (mergeInner_basic (nfds - i) a nfds g i le_rfl).1

theorem mergeInner_length (a : List FDGroup) (nfds g i : Nat) :
    (mergeInner a nfds g i).1.length = a.length :=
  (mergeInner_basic (nfds - i) a nfds g i le_rfl).2.1

theorem mergeInner_i_le (a : List FDGroup) (nfds g i : Nat) (h : i ≤ nfds) :
    i ≤ (mergeInner a nfds g i).2 :=
  (mergeInner_basic (nfds - i) a nfds g i le_rfl).2.2 h

/-- The inner loop never touches positions before `i` other than the
pivot. -/
theorem mergeInner_frame :
    ∀ (fuel : Nat) (a : List FDGroup) (nfds g i : Nat), nfds - i ≤ fuel →
      g < i → nfds ≤ a.length →
      ∀ p, p < i → p ≠ g →
        (mergeInner a nfds g i).1.getD p dflt = a.getD p dflt := by
  intro fuel
  induction fuel with
  | zero =>
    intro a nfds g i hf hg hn p hp hpg
    rw [mergeInner, dif_neg (show ¬ i < nfds by omega)]
  | succ n ih =>
    intro a nfds g i hf hg hn p hp hpg
    rw [mergeInner]
    by_cases h : i < nfds
    · rw [dif_pos h]
      by_cases hfd : (a.getD i dflt).fd = (a.getD g dflt).fd
      · rw [if_pos hfd]
        rw [ih (mergeStep a nfds g i) (nfds - 1) g i (by omega) hg
          (by rw [mergeStep_length]; omega) p hp hpg]
        exact mergeStep_getD_lt a hg h hp hpg
      · rw [if_neg hfd]
        exact ih a nfds g (i + 1) (by omega) (by omega) hn p (by omega) hpg
    · rw [dif_neg h]

/-- The pivot's descriptor and token text survive the inner loop. -/
theorem mergeInner_pivot :
    ∀ (fuel : Nat) (a : List FDGroup) (nfds g i : Nat), nfds - i ≤ fuel →
      g < i → nfds ≤ a.length →
      ((mergeInner a nfds g i).1.getD g dflt).fd = (a.getD g dflt).fd ∧
      ((mergeInner a nfds g i).1.getD g dflt).text = (a.getD g dflt).text := by
  intro fuel
  induction fuel with
  | zero =>
    intro a nfds g i hf hg hn
    rw [mergeInner, dif_neg (show ¬ i < nfds by omega)]
    exact ⟨rfl, rfl⟩
  | succ n ih =>
    intro a nfds g i hf hg hn
    rw [mergeInner]
    by_cases h : i < nfds
    · rw [dif_pos h]
      by_cases hfd : (a.getD i dflt).fd = (a.getD g dflt).fd
      · rw [if_pos hfd]
        obtain ⟨h1, h2⟩ := ih (mergeStep a nfds g i) (nfds - 1) g i
          (by omega) hg (by rw [mergeStep_length]; omega)
        rw [h1, h2, mergeStep_getD_pivot a hg h hn]
        exact ⟨rfl, rfl⟩
      · rw [if_neg hfd]
        exact ih a nfds g (i + 1) (by omega) (by omega) hn
    · rw [dif_neg h]
      exact ⟨rfl, rfl⟩

/-- After the inner loop, no live entry at or after `i` shares the
pivot's descriptor. -/
theorem mergeInner_tail_ne :
    ∀ (fuel : Nat) (a : List FDGroup) (nfds g i : Nat), nfds - i ≤ fuel →
      g < i → nfds ≤ a.length →
      ∀ q, i ≤ q → q < (mergeInner a nfds g i).2 →
        ((mergeInner a nfds g i).1.getD q dflt).fd ≠ (a.getD g dflt).fd := by
  intro fuel
  induction fuel with
  | zero =>
    intro a nfds g i hf hg hn q hq1 hq2
    rw [mergeInner, dif_neg (show ¬ i < nfds by omega)] at hq2 ⊢
    omega
  | succ n ih =>
    intro a nfds g i hf hg hn q hq1 hq2
    rw [mergeInner] at hq2 ⊢
    by_cases h : i < nfds
    · rw [dif_pos h] at hq2 ⊢
      by_cases hfd : (a.getD i dflt).fd = (a.getD g dflt).fd
      · rw [if_pos hfd] at hq2 ⊢
        have hpiv := mergeStep_getD_pivot a hg h hn
        have := ih (mergeStep a nfds g i) (nfds - 1) g i
          (by omega) hg (by rw [mergeStep_length]; omega) q hq1 hq2
        rw [hpiv] at this
        exact this
      · rw [if_neg hfd] at hq2 ⊢
        rcases Nat.eq_or_lt_of_le hq1 with heq | hlt
        · -- q = i: untouched by the recursive run, and its fd differs
          rw [← heq]
          rw [mergeInner_frame n a nfds g (i + 1) (by omega) (by omega) hn i
            (by omega) (by omega)]
          exact hfd
        · exact ih a nfds g (i + 1) (by omega) (by omega) hn q (by omega) hq2
    · rw [dif_neg h] at hq2 ⊢
      omega

/-- Every live entry at or after `i` after the inner loop is literally
one of the live entries at or after `i` before it. -/
theorem mergeInner_tail_prov :
    ∀ (fuel : Nat) (a : List FDGroup) (nfds g i : Nat), nfds - i ≤ fuel →
      g < i → nfds ≤ a.length →
      ∀ q, i ≤ q → q < (mergeInner a nfds g i).2 →
        ∃ q', i ≤ q' ∧ q' < nfds ∧
          (mergeInner a nfds g i).1.getD q dflt = a.getD q' dflt := by
  intro fuel
  induction fuel with
  | zero =>
    intro a nfds g i hf hg hn q hq1 hq2
    rw [mergeInner, dif_neg (show ¬ i < nfds by omega)] at hq2 ⊢
    omega
  | succ n ih =>
    intro a nfds g i hf hg hn q hq1 hq2
    rw [mergeInner] at hq2 ⊢
    by_cases h : i < nfds
    · rw [dif_pos h] at hq2 ⊢
      by_cases hfd : (a.getD i dflt).fd = (a.getD g dflt).fd
      · rw [if_pos hfd] at hq2 ⊢
        obtain ⟨q', hq'1, hq'2, hq'eq⟩ := ih (mergeStep a nfds g i) (nfds - 1) g i
          (by omega) hg (by rw [mergeStep_length]; omega) q hq1 hq2
        rcases Nat.eq_or_lt_of_le hq'1 with rfl | hq'gt
        · refine ⟨nfds - 1, by omega, by omega, ?_⟩
          rw [hq'eq, mergeStep_getD_at_i a hg h hn]
        · refine ⟨q', by omega, by omega, ?_⟩
          rw [hq'eq, mergeStep_getD_gt a hg h hq'gt]
      · rw [if_neg hfd] at hq2 ⊢
        rcases Nat.eq_or_lt_of_le hq1 with heq | hlt
        · refine ⟨i, le_rfl, by omega, ?_⟩
          rw [← heq]
          rw [mergeInner_frame n a nfds g (i + 1) (by omega) (by omega) hn i
            (by omega) (by omega)]
        · obtain ⟨q', hq'1, hq'2, hq'eq⟩ :=
            ih a nfds g (i + 1) (by omega) (by omega) hn q (by omega) hq2
          exact ⟨q', by omega, hq'2, hq'eq⟩
    · rw [dif_neg h] at hq2 ⊢
      exact ⟨q, hq1, by omega, rfl⟩

/-- The inner loop preserves, for every descriptor, the OR of the masks of
the live entries naming it. -/
theorem mergeInner_or :
    ∀ (fuel : Nat) (a : List FDGroup) (nfds g i : Nat), nfds - i ≤ fuel →
      g < i → nfds ≤ a.length → ∀ d,
      orForFd ((mergeInner a nfds g i).1.take (mergeInner a nfds g i).2) d
        = orForFd (a.take nfds) d := by
  intro fuel
  induction fuel with
  | zero =>
    intro a nfds g i hf hg hn d
    rw [mergeInner, dif_neg (show ¬ i < nfds by omega)]
  | succ n ih =>
    intro a nfds g i hf hg hn d
    rw [mergeInner]
    by_cases h : i < nfds
    · rw [dif_pos h]
      by_cases hfd : (a.getD i dflt).fd = (a.getD g dflt).fd
      · rw [if_pos hfd]
        rw [ih (mergeStep a nfds g i) (nfds - 1) g i (by omega) hg
          (by rw [mergeStep_length]; omega) d]
        exact mergeStep_or a hg h hn hfd d
      · rw [if_neg hfd]
        exact ih a nfds g (i + 1) (by omega) (by omega) hn d
    · rw [dif_neg h]

/-- The inner loop preserves the set of live descriptors. -/
theorem mergeInner_memfd :
    ∀ (fuel : Nat) (a : List FDGroup) (nfds g i : Nat), nfds - i ≤ fuel →
      g < i → nfds ≤ a.length → ∀ x,
      (x ∈ ((mergeInner a nfds g i).1.take (mergeInner a nfds g i).2).map (fun e => e.fd)
        ↔ x ∈ (a.take nfds).map (fun e => e.fd)) := by
  intro fuel
  induction fuel with
  | zero =>
    intro a nfds g i hf hg hn x
    rw [mergeInner, dif_neg (show ¬ i < nfds by omega)]
  | succ n ih =>
    intro a nfds g i hf hg hn x
    rw [mergeInner]
    by_cases h : i < nfds
    · rw [dif_pos h]
      by_cases hfd : (a.getD i dflt).fd = (a.getD g dflt).fd
      · rw [if_pos hfd]
        exact (ih (mergeStep a nfds g i) (nfds - 1) g i (by omega) hg
          (by rw [mergeStep_length]; omega) x).trans (mergeStep_memfd a hg h hn hfd x)
      · rw [if_neg hfd]
        exact ih a nfds g (i + 1) (by omega) (by omega) hn x
    · rw [dif_neg h]

/-- Every live entry after the inner loop inherits descriptor and token
text from some live entry before it. -/
theorem mergeInner_prov :
    ∀ (fuel : Nat) (a : List FDGroup) (nfds g i : Nat), nfds - i ≤ fuel →
      g < i → nfds ≤ a.length →
      ∀ y ∈ (mergeInner a nfds g i).1.take (mergeInner a nfds g i).2,
        ∃ z ∈ a.take nfds, z.fd = y.fd ∧ z.text = y.text := by
  intro fuel
  induction fuel with
  | zero =>
    intro a nfds g i hf hg hn y hy
    rw [mergeInner, dif_neg (show ¬ i < nfds by omega)] at hy
    exact ⟨y, hy, rfl, rfl⟩
  | succ n ih =>
    intro a nfds g i hf hg hn y hy
    rw [mergeInner] at hy
    by_cases h : i < nfds
    · rw [dif_pos h] at hy
      by_cases hfd : (a.getD i dflt).fd = (a.getD g dflt).fd
      · rw [if_pos hfd] at hy
        obtain ⟨z1, hz1, hz1fd, hz1text⟩ := ih (mergeStep a nfds g i) (nfds - 1) g i
          (by omega) hg (by rw [mergeStep_length]; omega) y hy
        obtain ⟨z, hz, hzfd, hztext⟩ := mergeStep_prov a hg h hn z1 hz1
        exact ⟨z, hz, hzfd.trans hz1fd, hztext.trans hz1text⟩
      · rw [if_neg hfd] at hy
        exact ih a nfds g (i + 1) (by omega) (by omega) hn y hy
    · rw [dif_neg h] at hy
      exact ⟨y, hy, rfl, rfl⟩

theorem getD_eq_getElem' {α : Type} (l : List α) {n : Nat} (h : n < l.length) (d : α) :
    l.getD n d = l[n] := by
  simp [List.getD_eq_getElem?_getD, List.getElem?_eq_getElem h]

theorem dedupLoop_basic :
    ∀ (fuel : Nat) (a : List FDGroup) (nfds g : Nat), nfds - g ≤ fuel →
      (dedupLoop a nfds g).2 ≤ nfds ∧ (dedupLoop a nfds g).1.length = a.length := by
  intro fuel
  induction fuel with
  | zero =>
    intro a nfds g hf
    rw [dedupLoop, if_neg (show ¬ g < nfds - 1 by omega)]
    exact ⟨le_rfl, rfl⟩
  | succ n ih =>
    intro a nfds g hf
    rw [dedupLoop]
    by_cases hc : g < nfds - 1
    · rw [if_pos hc]
      have hle := mergeInner_nfds_le a nfds g (g + 1)
      rw [Nat.min_eq_left hle]
      obtain ⟨h1, h2⟩ := ih (mergeInner a nfds g (g + 1)).1
        (mergeInner a nfds g (g + 1)).2 (g + 1) (by omega)
      exact ⟨by omega, by rw [h2, mergeInner_length]⟩
    · rw [if_neg hc]
      exact ⟨le_rfl, rfl⟩

theorem dedupLoop_or :
    ∀ (fuel : Nat) (a : List FDGroup) (nfds g : Nat), nfds - g ≤ fuel →
      nfds ≤ a.length → ∀ d,
      orForFd ((dedupLoop a nfds g).1.take (dedupLoop a nfds g).2) d
        = orForFd (a.take nfds) d := by
  intro fuel
  induction fuel with
  | zero =>
    intro a nfds g hf hn d
    rw [dedupLoop, if_neg (show ¬ g < nfds - 1 by omega)]
  | succ n ih =>
    intro a nfds g hf hn d
    rw [dedupLoop]
    by_cases hc : g < nfds - 1
    · rw [if_pos hc]
      have hle := mergeInner_nfds_le a nfds g (g + 1)
      rw [Nat.min_eq_left hle]
      rw [ih (mergeInner a nfds g (g + 1)).1 (mergeInner a nfds g (g + 1)).2 (g + 1)
        (by omega) (by rw [mergeInner_length]; omega) d]
      exact mergeInner_or (nfds - (g + 1)) a nfds g (g + 1) le_rfl (by omega) hn d
    · rw [if_neg hc]

theorem dedupLoop_memfd :
    ∀ (fuel : Nat) (a : List FDGroup) (nfds g : Nat), nfds - g ≤ fuel →
      nfds ≤ a.length → ∀ x,
      (x ∈ ((dedupLoop a nfds g).1.take (dedupLoop a nfds g).2).map (fun e => e.fd)
        ↔ x ∈ (a.take nfds).map (fun e => e.fd)) := by
  intro fuel
  induction fuel with
  | zero =>
    intro a nfds g hf hn x
    rw [dedupLoop, if_neg (show ¬ g < nfds - 1 by omega)]
  | succ n ih =>
    intro a nfds g hf hn x
    rw [dedupLoop]
    by_cases hc : g < nfds - 1
    · rw [if_pos hc]
      have hle := mergeInner_nfds_le a nfds g (g + 1)
      rw [Nat.min_eq_left hle]
      exact (ih (mergeInner a nfds g (g + 1)).1 (mergeInner a nfds g (g + 1)).2 (g + 1)
        (by omega) (by rw [mergeInner_length]; omega) x).trans
        (mergeInner_memfd (nfds - (g + 1)) a nfds g (g + 1) le_rfl (by omega) hn x)
    · rw [if_neg hc]

theorem dedupLoop_prov :
    ∀ (fuel : Nat) (a : List FDGroup) (nfds g : Nat), nfds - g ≤ fuel →
      nfds ≤ a.length →
      ∀ y ∈ (dedupLoop a nfds g).1.take (dedupLoop a nfds g).2,
        ∃ z ∈ a.take nfds, z.fd = y.fd ∧ z.text = y.text := by
  intro fuel
  induction fuel with
  | zero =>
    intro a nfds g hf hn y hy
    rw [dedupLoop, if_neg (show ¬ g < nfds - 1 by omega)] at hy
    exact ⟨y, hy, rfl, rfl⟩
  | succ n ih =>
    intro a nfds g hf hn y hy
    rw [dedupLoop] at hy
    by_cases hc : g < nfds - 1
    · rw [if_pos hc] at hy
      have hle := mergeInner_nfds_le a nfds g (g + 1)
      rw [Nat.min_eq_left hle] at hy
      obtain ⟨z1, hz1, hz1fd, hz1text⟩ := ih (mergeInner a nfds g (g + 1)).1
        (mergeInner a nfds g (g + 1)).2 (g + 1) (by omega)
        (by rw [mergeInner_length]; omega) y hy
      obtain ⟨z, hz, hzfd, hztext⟩ := mergeInner_prov (nfds - (g + 1)) a nfds g (g + 1)
        le_rfl (by omega) hn z1 hz1
      exact ⟨z, hz, hzfd.trans hz1fd, hztext.trans hz1text⟩
    · rw [if_neg hc] at hy
      exact ⟨y, hy, rfl, rfl⟩

/-- The outer loop turns the prefix-distinctness invariant into full
pairwise distinctness of the live descriptors. -/
theorem dedupLoop_nodup :
    ∀ (fuel : Nat) (a : List FDGroup) (nfds g : Nat), nfds - g ≤ fuel →
      nfds ≤ a.length →
      (∀ p q, p < g → p < q → q < nfds →
        (a.getD p dflt).fd ≠ (a.getD q dflt).fd) →
      ∀ p q, p < q → q < (dedupLoop a nfds g).2 →
        ((dedupLoop a nfds g).1.getD p dflt).fd
          ≠ ((dedupLoop a nfds g).1.getD q dflt).fd := by
  intro fuel
  induction fuel with
  | zero =>
    intro a nfds g hf hn hinv p q hpq hq
    rw [dedupLoop, if_neg (show ¬ g < nfds - 1 by omega)] at hq ⊢
    exact hinv p q (by omega) hpq hq
  | succ n ih =>
    intro a nfds g hf hn hinv p q hpq hq
    rw [dedupLoop] at hq ⊢
    by_cases hc : g < nfds - 1
    · rw [if_pos hc] at hq ⊢
      have hle := mergeInner_nfds_le a nfds g (g + 1)
      rw [Nat.min_eq_left hle] at hq ⊢
      refine ih (mergeInner a nfds g (g + 1)).1 (mergeInner a nfds g (g + 1)).2 (g + 1)
        (by omega) (by rw [mergeInner_length]; omega) ?_ p q hpq hq
      -- the invariant advances from g to g + 1 over the merged array
      intro p' q' hp' hp'q' hq'
      have hfuel : nfds - (g + 1) ≤ nfds - (g + 1) := le_rfl
      by_cases hq'le : q' < g + 1
      · -- both positions are in the untouched-or-pivot prefix
        have hgetp : ((mergeInner a nfds g (g + 1)).1.getD p' dflt).fd
            = (a.getD p' dflt).fd := by
          rw [mergeInner_frame (nfds - (g + 1)) a nfds g (g + 1) hfuel (by omega) hn p'
            (by omega) (by omega)]
        have hgetq : ((mergeInner a nfds g (g + 1)).1.getD q' dflt).fd
            = (a.getD q' dflt).fd := by
          by_cases hq'g : q' = g
          · rw [hq'g]
            exact (mergeInner_pivot (nfds - (g + 1)) a nfds g (g + 1) hfuel
              (by omega) hn).1
          · rw [mergeInner_frame (nfds - (g + 1)) a nfds g (g + 1) hfuel (by omega) hn q'
              (by omega) hq'g]
        rw [hgetp, hgetq]
        exact hinv p' q' (by omega) hp'q' (by omega)
      · -- q' is in the scanned tail
        have hq'ge : g + 1 ≤ q' := by omega
        by_cases hp'g : p' = g
        · have hgetp : ((mergeInner a nfds g (g + 1)).1.getD p' dflt).fd
              = (a.getD g dflt).fd := by
            rw [hp'g]
            exact (mergeInner_pivot (nfds - (g + 1)) a nfds g (g + 1) hfuel
              (by omega) hn).1
          rw [hgetp]
          exact fun he => (mergeInner_tail_ne (nfds - (g + 1)) a nfds g (g + 1) hfuel
            (by omega) hn q' hq'ge hq') he.symm
        · have hgetp : ((mergeInner a nfds g (g + 1)).1.getD p' dflt).fd
              = (a.getD p' dflt).fd := by
            rw [mergeInner_frame (nfds - (g + 1)) a nfds g (g + 1) hfuel (by omega) hn p'
              (by omega) hp'g]
          obtain ⟨q'', hq''1, hq''2, hq''eq⟩ := mergeInner_tail_prov (nfds - (g + 1))
            a nfds g (g + 1) hfuel (by omega) hn q' hq'ge hq'
          rw [hgetp, hq''eq]
          exact hinv p' q'' (by omega) (by omega) hq''2
    · rw [if_neg hc] at hq ⊢
      exact hinv p q (by omega) hpq hq

/-- Unfolding of `dedup` without the local binder. -/
theorem dedup_eq (a : List FDGroup) :
    dedup a = (dedupLoop a a.length 0).1.take (dedupLoop a a.length 0).2 := rfl

/-- After the dedup loop of src/poll.c lines 520-535 the retained descriptors
are pairwise distinct. -/
theorem dedup_nodup (a : List FDGroup) :
    ((dedup a).map (fun g => g.fd)).Nodup := by
  have hmain := dedupLoop_nodup a.length a a.length 0 (by omega) le_rfl
    (fun p q hp _ _ => absurd hp (Nat.not_lt_zero p))
  obtain ⟨hb1, hb2⟩ := dedupLoop_basic a.length a a.length 0 (by omega)
  have hpw : (dedup a).Pairwise (fun x y => x.fd ≠ y.fd) := by
    rw [dedup_eq, List.pairwise_iff_getElem]
    intro i j hi hj hij
    have hlen : ((dedupLoop a a.length 0).1.take (dedupLoop a a.length 0).2).length
        = (dedupLoop a a.length 0).2 := by
      rw [List.length_take]
      omega
    rw [hlen] at hi hj
    have hij' := hmain i j hij hj
    rw [getD_eq_getElem' (dedupLoop a a.length 0).1 (by omega) dflt,
      getD_eq_getElem' (dedupLoop a a.length 0).1 (by omega) dflt] at hij'
    simp only [List.getElem_take]
    exact hij'
  exact List.pairwise_map.mpr hpw

/-- Deduplication preserves the per-descriptor OR of all requested masks. -/
theorem dedup_or (a : List FDGroup) (d : Nat) :
    orForFd (dedup a) d = orForFd a d := by
  have h := dedupLoop_or a.length a a.length 0 (by omega) le_rfl d
  rw [List.take_length] at h
  rw [dedup_eq]
  exact h

/-- Deduplication preserves the set of polled descriptors. -/
theorem dedup_memfd (a : List FDGroup) (x : Nat) :
    x ∈ (dedup a).map (fun g => g.fd) ↔ x ∈ a.map (fun g => g.fd) := by
  have h := dedupLoop_memfd a.length a a.length 0 (by omega) le_rfl x
  rw [List.take_length] at h
  rw [dedup_eq]
  exact h

/-- Every retained entry carries the descriptor and token text of some
original group. -/
theorem dedup_prov (a : List FDGroup) :
    ∀ y ∈ dedup a, ∃ z ∈ a, z.fd = y.fd ∧ z.text = y.text := by
  intro y hy
  rw [dedup_eq] at hy
  have h := dedupLoop_prov a.length a a.length 0 (by omega) le_rfl y hy
  rwa [List.take_length] at h

/-- Each retained entry's mask equals the OR of every original mask naming
its descriptor. -/
theorem dedup_events (a : List FDGroup) :
    ∀ y ∈ dedup a, y.events = orForFd a y.fd := by
  intro y hy
  have h := orForFd_of_nodup (dedup a) y (dedup_nodup a) hy
  rw [dedup_or] at h
  exact h.symm

end Poll

/-- Claim C2: for every parsed group sequence, deduplication yields pairwise
distinct descriptors covering exactly the original descriptor set, with each
entry's mask the bitwise OR of all masks naming that descriptor; in particular
`poll 1 2 3 OUT 3 4 IN` parses to five groups, descriptor 3 appears exactly
once after dedup, and its merged mask is OUT ||| IN. -/
theorem claim_C2 :
    (∀ a : List Poll.FDGroup,
        ((Poll.dedup a).map (fun g => g.fd)).Nodup
        ∧ (∀ d : Nat, d ∈ (Poll.dedup a).map (fun g => g.fd)
            ↔ d ∈ a.map (fun g => g.fd))
        ∧ (∀ g ∈ Poll.dedup a, g.events = Poll.orForFd a g.fd))
    ∧ Poll.mainParse ["1", "2", "3", "OUT", "3", "4", "IN"]
        = .poll [⟨1, 4, "1"⟩, ⟨2, 4, "2"⟩, ⟨3, 4, "3"⟩, ⟨3, 1, "3"⟩, ⟨4, 1, "4"⟩] (-1)
    ∧ ((Poll.dedup [⟨1, 4, "1"⟩, ⟨2, 4, "2"⟩, ⟨3, 4, "3"⟩, ⟨3, 1, "3"⟩,
        ⟨4, 1, "4"⟩]).map (fun g => g.fd)).count 3 = 1
    ∧ (∀ g ∈ Poll.dedup [⟨1, 4, "1"⟩, ⟨2, 4, "2"⟩, ⟨3, 4, "3"⟩, ⟨3, 1, "3"⟩,
        ⟨4, 1, "4"⟩], g.fd = 3 → g.events = 0x004 ||| 0x001) := by
  refine ⟨fun a => ⟨Poll.dedup_nodup a, fun d => Poll.dedup_memfd a d,
    Poll.dedup_events a⟩, by decide, ?_, ?_⟩
  · have hnd := Poll.dedup_nodup
      [⟨1, 4, "1"⟩, ⟨2, 4, "2"⟩, ⟨3, 4, "3"⟩, ⟨3, 1, "3"⟩, ⟨4, 1, "4"⟩]
    have hmem : 3 ∈ (Poll.dedup [⟨1, 4, "1"⟩, ⟨2, 4, "2"⟩, ⟨3, 4, "3"⟩,
        ⟨3, 1, "3"⟩, ⟨4, 1, "4"⟩]).map (fun g => g.fd) :=
      (Poll.dedup_memfd _ 3).mpr (by decide)
    exact List.count_eq_one_of_mem hnd hmem
  · intro g hg h3
    have h := Poll.dedup_events _ g hg
    rw [h, h3]
    decide

/-- Claim C2 witness: the dedup of a singleton group keeps its mask, which
equals the OR over the original list for its descriptor. -/
theorem claim_C2_witness :
    (⟨3, 5, "3"⟩ : Poll.FDGroup).events = Poll.orForFd [⟨3, 5, "3"⟩] 3 :=
  (claim_C2.1 [⟨3, 5, "3"⟩]).2.2 ⟨3, 5, "3"⟩
    (by simp [Poll.dedup, Poll.dedupLoop])

/-- Claim C10 (amended): every result line begins with the exact stored token
text of its descriptor group, the stored text of every deduplicated group is
the token text of SOME original occurrence of that descriptor (not necessarily
the earliest), `poll IN` uses the implicit default group with text "0", and
`poll 007 IN` stores the leading-zero text "007". -/
theorem claim_C10 :
    (∀ (flags : Nat) (text : String), ∃ rest : String,
        Poll.printEventFlags flags text = text ++ rest)
    ∧ (∀ a : List Poll.FDGroup, ∀ g ∈ Poll.dedup a,
        ∃ z ∈ a, z.fd = g.fd ∧ z.text = g.text)
    ∧ Poll.mainParse ["IN"] = .poll [⟨0, 1, "0"⟩] (-1)
    ∧ Poll.mainParse ["007", "IN"] = .poll [⟨7, 1, "007"⟩] (-1) := by
  refine ⟨fun flags text => ⟨_, by rw [Poll.printEventFlags_eq, String.append_assoc]⟩,
    fun a g hg => Poll.dedup_prov a g hg, by decide, by decide⟩

/-- Claim C10 witness: the group parsed from `poll 007 IN` survives dedup with
its descriptor and text taken from an original group. -/
theorem claim_C10_witness :
    ∃ z ∈ [(⟨7, 1, "007"⟩ : Poll.FDGroup)], z.fd = 7 ∧ z.text = "007" :=
  claim_C10.2.1 [⟨7, 1, "007"⟩] ⟨7, 1, "007"⟩
    (by simp [Poll.dedup, Poll.dedupLoop])

/-- Claim C10 counterexample: for `poll 1 1 2 02` the parse yields two groups
for descriptor 2 with texts "2" then "02"; the swap-from-end merge keeps the
LATER occurrence's text "02", while the earliest group naming descriptor 2 has
text "2" — so the earliest occurrence's token text is not the one printed. -/
theorem claim_C10_counterexample :
    Poll.mainParse ["1", "1", "2", "02"]
      = .poll [⟨1, 0, "1"⟩, ⟨1, 0, "1"⟩, ⟨2, 0, "2"⟩, ⟨2, 0, "02"⟩] (-1)
    ∧ Poll.dedup [⟨1, 0, "1"⟩, ⟨1, 0, "1"⟩, ⟨2, 0, "2"⟩, ⟨2, 0, "02"⟩]
      = [⟨1, 0, "1"⟩, ⟨2, 0, "02"⟩]
    ∧ List.find? (fun g => g.fd == 2)
        [(⟨1, 0, "1"⟩ : Poll.FDGroup), ⟨1, 0, "1"⟩, ⟨2, 0, "2"⟩, ⟨2, 0, "02"⟩]
      = some ⟨2, 0, "2"⟩
    ∧ ("02" : String) ≠ "2" := by
  refine ⟨by decide, ?_, by decide, by decide⟩
  simp [Poll.dedup, Poll.dedupLoop, Poll.mergeInner, Poll.mergeStep, Poll.dflt]

namespace PollSpec

/-- Under the simulation invariant, the spec-side mask application builds
exactly the array the code-side `applyFlagsToFDGroup` builds. -/
theorem applyMask_eq (cst : Poll.PState) (sst : SpecState) (h : inv cst sst) :
    applyMask sst = (Poll.applyFlagsToFDGroup cst.flags cst).arr := by
  obtain ⟨htime, hflags, hcase⟩ := h
  rcases hcase with ⟨hn, hi, harr, happ, hpend⟩ | ⟨hn, hi, hlen, happ, hpend⟩
  · simp [applyMask, Poll.applyFlagsToFDGroup, happ, hpend, harr, hi, hflags]
  · have hne : ¬(sst.applied.isEmpty ∧ sst.pending.isEmpty) := by
      rintro ⟨h1, h2⟩
      rw [happ, List.isEmpty_iff] at h1
      rw [hpend, List.isEmpty_iff] at h2
      have h1l := congrArg List.length h1
      have h2l := congrArg List.length h2
      simp only [List.length_take, List.length_map, List.length_drop, List.length_nil,
        hlen] at h1l h2l
      omega
    simp only [applyMask, Poll.applyFlagsToFDGroup]
    rw [if_neg hne]
    rw [happ, hpend, hflags, List.map_map]
    rfl

/-- `applyFlagsToFDGroup` always leaves at least one live group. -/
theorem applyFlags_nfds_pos (flags : Nat) (cst : Poll.PState) :
    1 ≤ (Poll.applyFlagsToFDGroup flags cst).nfds := by
  show 1 ≤ if cst.nfds = 0 then 1 else cst.nfds
  by_cases hz : cst.nfds = 0
  · rw [if_pos hz]
  · rw [if_neg hz]
    omega

/-- `openFDGroup` with a nonzero pending mask: apply the mask, then append
the new slot (src/poll.c lines 457-469). -/
theorem openFDGroup_pos (cst : Poll.PState) (hf : cst.flags ≠ 0) (fd : Nat)
    (tok : String) :
    Poll.openFDGroup cst fd tok
      = { arr := (Poll.applyFlagsToFDGroup cst.flags cst).arr ++ [⟨fd, 0, tok⟩],
          nfds := (Poll.applyFlagsToFDGroup cst.flags cst).nfds + 1,
          fdGroup_i := (Poll.applyFlagsToFDGroup cst.flags cst).fdGroup_i,
          flags := 0,
          timeout := cst.timeout } := by
  by_cases hz : cst.nfds = 0 <;>
    simp [Poll.openFDGroup, Poll.applyFlagsToFDGroup, hf, hz]

/-- Invariant preservation for a descriptor token arriving with a nonzero
accumulated mask. -/
theorem inv_open_apply (cst : Poll.PState) (sst : SpecState) (h : inv cst sst)
    (hm : sst.mask ≠ 0) (fd : Nat) (tok : String) :
    inv (Poll.openFDGroup cst fd tok)
      { applied := applyMask sst, pending := [(fd, tok)], mask := 0,
        timeout := sst.timeout } := by
  have htime := h.1
  have hflags := h.2.1
  have hfne : cst.flags ≠ 0 := by rw [hflags]; exact hm
  have hAmask := applyMask_eq cst sst h
  have hAnfds := applyFlags_nfds_pos cst.flags cst
  have hAlen : (Poll.applyFlagsToFDGroup cst.flags cst).arr.length
      = (Poll.applyFlagsToFDGroup cst.flags cst).nfds := by
    obtain ⟨-, -, hcase⟩ := h
    rcases hcase with ⟨hn, hi, harr, -, -⟩ | ⟨hn, hi, hlen, -, -⟩
    · simp [Poll.applyFlagsToFDGroup, harr, hi, hn]
    · have hnz : ¬ cst.nfds = 0 := by omega
      simp only [Poll.applyFlagsToFDGroup, List.length_append, List.length_map,
        List.length_take, List.length_drop, hlen]
      rw [if_neg hnz]
      omega
  have hAfi : (Poll.applyFlagsToFDGroup cst.flags cst).fdGroup_i
      = (Poll.applyFlagsToFDGroup cst.flags cst).nfds := rfl
  rw [openFDGroup_pos cst hfne fd tok]
  refine ⟨htime, rfl, Or.inr ⟨?_, ?_, ?_, ?_, ?_⟩⟩
  · show 1 ≤ (Poll.applyFlagsToFDGroup cst.flags cst).nfds + 1
    omega
  · show (Poll.applyFlagsToFDGroup cst.flags cst).fdGroup_i
      ≤ (Poll.applyFlagsToFDGroup cst.flags cst).nfds + 1
    rw [hAfi]
    omega
  · show ((Poll.applyFlagsToFDGroup cst.flags cst).arr
        ++ [(⟨fd, 0, tok⟩ : Poll.FDGroup)]).length
      = (Poll.applyFlagsToFDGroup cst.flags cst).nfds + 1
    simp [hAlen]
  · show applyMask sst
      = ((Poll.applyFlagsToFDGroup cst.flags cst).arr
          ++ [(⟨fd, 0, tok⟩ : Poll.FDGroup)]).take
          (Poll.applyFlagsToFDGroup cst.flags cst).fdGroup_i
    rw [hAmask, hAfi, ← hAlen, List.take_append_of_le_length le_rfl, List.take_length]
  · show [(fd, tok)]
      = (((Poll.applyFlagsToFDGroup cst.flags cst).arr
          ++ [(⟨fd, 0, tok⟩ : Poll.FDGroup)]).drop
          (Poll.applyFlagsToFDGroup cst.flags cst).fdGroup_i).map
            (fun (g : Poll.FDGroup) => (g.fd, g.text))
    rw [hAfi, ← hAlen, List.drop_append_of_le_length le_rfl, List.drop_length]
    rfl

/-- Invariant preservation for a descriptor token arriving with a zero
accumulated mask: the group is simply appended to the pending window. -/
theorem inv_open_noapply (cst : Poll.PState) (sst : SpecState) (h : inv cst sst)
    (hm : sst.mask = 0) (fd : Nat) (tok : String) :
    inv (Poll.openFDGroup cst fd tok)
      { sst with pending := sst.pending ++ [(fd, tok)] } := by
  obtain ⟨htime, hflags, hcase⟩ := h
  have hfz : cst.flags = 0 := by rw [hflags, hm]
  have hopen : Poll.openFDGroup cst fd tok
      = { cst with
          arr := if cst.nfds = 0 then [⟨fd, 0, tok⟩] else cst.arr ++ [⟨fd, 0, tok⟩],
          nfds := cst.nfds + 1 } := by
    simp [Poll.openFDGroup, hfz]
  rw [hopen]
  rcases hcase with ⟨hn, hi, harr, happ, hpend⟩ | ⟨hn, hi, hlen, happ, hpend⟩
  · refine ⟨htime, hflags, Or.inr ⟨?_, ?_, ?_, ?_, ?_⟩⟩
    · show 1 ≤ cst.nfds + 1
      omega
    · show cst.fdGroup_i ≤ cst.nfds + 1
      omega
    · show (if cst.nfds = 0 then [⟨fd, 0, tok⟩] else cst.arr ++ [⟨fd, 0, tok⟩]).length
        = cst.nfds + 1
      rw [if_pos hn, hn]
      rfl
    · show sst.applied
        = (if cst.nfds = 0 then [⟨fd, 0, tok⟩]
           else cst.arr ++ [⟨fd, 0, tok⟩]).take cst.fdGroup_i
      rw [if_pos hn, hi, happ]
      rfl
    · show sst.pending ++ [(fd, tok)]
        = ((if cst.nfds = 0 then [⟨fd, 0, tok⟩]
            else cst.arr ++ [⟨fd, 0, tok⟩]).drop cst.fdGroup_i).map
              (fun g => (g.fd, g.text))
      rw [if_pos hn, hi, hpend]
      rfl
  · have hnz : ¬ cst.nfds = 0 := by omega
    have hile : cst.fdGroup_i ≤ cst.arr.length := by rw [hlen]; exact hi
    refine ⟨htime, hflags, Or.inr ⟨?_, ?_, ?_, ?_, ?_⟩⟩
    · show 1 ≤ cst.nfds + 1
      omega
    · show cst.fdGroup_i ≤ cst.nfds + 1
      omega
    · show (if cst.nfds = 0 then [⟨fd, 0, tok⟩] else cst.arr ++ [⟨fd, 0, tok⟩]).length
        = cst.nfds + 1
      rw [if_neg hnz]
      simp [hlen]
    · show sst.applied
        = (if cst.nfds = 0 then [⟨fd, 0, tok⟩]
           else cst.arr ++ [⟨fd, 0, tok⟩]).take cst.fdGroup_i
      rw [if_neg hnz, happ, List.take_append_of_le_length hile]
    · show sst.pending ++ [(fd, tok)]
        = ((if cst.nfds = 0 then [⟨fd, 0, tok⟩]
            else cst.arr ++ [⟨fd, 0, tok⟩]).drop cst.fdGroup_i).map
              (fun g => (g.fd, g.text))
      rw [if_neg hnz, List.drop_append_of_le_length hile, hpend]
      simp

/-- Invariant preservation for a timeout update. -/
theorem inv_timeout (cst : Poll.PState) (sst : SpecState) (h : inv cst sst) (t : Int) :
    inv { cst with timeout := t } { sst with timeout := t } := by
  obtain ⟨htime, hflags, hcase⟩ := h
  exact ⟨rfl, hflags, hcase⟩

/-- Invariant preservation for an event token ORed into the accumulator. -/
theorem inv_orflag (cst : Poll.PState) (sst : SpecState) (h : inv cst sst) (flag : Nat) :
    inv { cst with flags := cst.flags ||| flag }
      { sst with mask := sst.mask ||| flag } := by
  obtain ⟨htime, hflags, hcase⟩ := h
  exact ⟨htime, by rw [hflags], hcase⟩

/-- The invariant holds between the code-side preset state and the empty
spec-side state. -/
theorem inv_init : inv Poll.initState
    { applied := [], pending := [], mask := 0, timeout := -1 } :=
  ⟨rfl, rfl, Or.inl ⟨rfl, rfl, rfl, rfl, rfl⟩⟩

/-- The code-side argument loop and the spec-side grouper agree from any
pair of invariant-related states. -/
theorem specLoop_eq :
    ∀ (fuel : Nat) (args : List String), args.length ≤ fuel →
      ∀ (cst : Poll.PState) (sst : SpecState), inv cst sst →
        Poll.mainLoop args cst = specLoop args sst := by
  intro fuel
  induction fuel with
  | zero =>
    intro args hlen cst sst hinv
    have hargs : args = [] := List.length_eq_zero.mp (by omega)
    subst hargs
    simp only [Poll.mainLoop, specLoop]
    rw [applyMask_eq cst sst hinv, hinv.1]
  | succ n ih =>
    intro args hlen cst sst hinv
    cases args with
    | nil =>
      simp only [Poll.mainLoop, specLoop]
      rw [applyMask_eq cst sst hinv, hinv.1]
    | cons tok rest =>
      rw [List.length_cons] at hlen
      simp only [Poll.mainLoop, specLoop]
      by_cases hfd : 0 ≤ (Poll.strToInt tok.data).1
      · rw [if_pos hfd, if_pos hfd]
        by_cases hm : sst.mask ≠ 0
        · rw [if_pos hm]
          exact ih rest (by omega) _ _
            (inv_open_apply cst sst hinv hm (Poll.strToInt tok.data).1.toNat tok)
        · rw [if_neg hm]
          exact ih rest (by omega) _ _
            (inv_open_noapply cst sst hinv (not_not.mp hm)
              (Poll.strToInt tok.data).1.toNat tok)
      · rw [if_neg hfd, if_neg hfd]
        by_cases hov : (Poll.strToInt tok.data).1 = -1
        · rw [if_pos hov, if_pos hov]
        · rw [if_neg hov, if_neg hov]
          cases hopt : Poll.parseOption tok rest.head? with
          | exit_success out => rfl
          | exit_failure err => rfl
          | parse_good t consumed =>
            cases consumed with
            | false => exact ih rest (by omega) _ _ (inv_timeout cst sst hinv t)
            | true =>
              cases rest with
              | nil => rfl
              | cons tok2 rest2 =>
                rw [List.length_cons] at hlen
                exact ih rest2 (by omega) _ _ (inv_timeout cst sst hinv t)
          | parse_bad =>
            by_cases hflag : Poll.strToEventFlag tok.data ≠ 0
            · simp only [if_pos hflag]
              exact ih rest (by omega) _ _
                (inv_orflag cst sst hinv (Poll.strToEventFlag tok.data))
            · simp only [if_neg hflag]

end PollSpec

/-- Claim C1: the argument grouping of src/poll.c (event tokens OR their bit
into a mask accumulator; a descriptor token or the end of the argument list
reached with a nonzero accumulated mask applies that mask to every group
opened since the previous application; with no preceding descriptor token the
mask goes to an implicit group for descriptor 0) coincides on every argument
list with the spec-side grouper written from the claim's words: same early
exits, same final group sequence, same timeout. -/
theorem claim_C1 (args : List String) :
    Poll.mainParse args = PollSpec.specParse args :=
  PollSpec.specLoop_eq args.length args le_rfl Poll.initState
    { applied := [], pending := [], mask := 0, timeout := -1 }
    PollSpec.inv_init
